import Mathlib

/-!
Verification of the fsa-llm repository's core pipeline against its
natural-language specification.

The Python sources are shallowly embedded:
* Python strings are modelled as Lean `String` (or `List Char` where
  character-level processing matters),
* parsed JSON values (`json.loads` results) are modelled by the inductive
  type `Json`,
* each LLM round trip is modelled as an oracle input: the embedded
  function is parameterised by the outcome of the call (unavailable
  client, raised exception, JSON parse failure, or a parsed value),
* mutation of `st.session_state` is modelled by explicit state passing,
* a swallowed Python exception (`except ...: log(...)`) is modelled by
  returning the state reached at the raise point together with a
  `raised` flag.
-/

namespace FsaLlm

/-! ## A model of parsed JSON values (results of `json.loads`).

Numbers are modelled as `Int`; no claim depends on float behaviour. -/

inductive Json where
  | null : Json
  | bool : Bool → Json
  | num : Int → Json
  | str : String → Json
  | arr : List Json → Json
  | obj : List (String × Json) → Json
deriving Repr, BEq

mutual

def jsonDecEq : (a b : Json) → Decidable (a = b)
  | .null, .null => isTrue rfl
  | .bool a, .bool b =>
    match decEq a b with
    | isTrue h => isTrue (by rw [h])
    | isFalse h => isFalse (by intro hc; cases hc; exact h rfl)
  | .num a, .num b =>
    match decEq a b with
    | isTrue h => isTrue (by rw [h])
    | isFalse h => isFalse (by intro hc; cases hc; exact h rfl)
  | .str a, .str b =>
    match decEq a b with
    | isTrue h => isTrue (by rw [h])
    | isFalse h => isFalse (by intro hc; cases hc; exact h rfl)
  | .arr a, .arr b =>
    match jsonListDecEq a b with
    | isTrue h => isTrue (by rw [h])
    | isFalse h => isFalse (by intro hc; cases hc; exact h rfl)
  | .obj a, .obj b =>
    match jsonKVListDecEq a b with
    | isTrue h => isTrue (by rw [h])
    | isFalse h => isFalse (by intro hc; cases hc; exact h rfl)
  | .null, .bool _ | .null, .num _ | .null, .str _ | .null, .arr _ | .null, .obj _
  | .bool _, .null | .bool _, .num _ | .bool _, .str _ | .bool _, .arr _ | .bool _, .obj _
  | .num _, .null | .num _, .bool _ | .num _, .str _ | .num _, .arr _ | .num _, .obj _
  | .str _, .null | .str _, .bool _ | .str _, .num _ | .str _, .arr _ | .str _, .obj _
  | .arr _, .null | .arr _, .bool _ | .arr _, .num _ | .arr _, .str _ | .arr _, .obj _
  | .obj _, .null | .obj _, .bool _ | .obj _, .num _ | .obj _, .str _ | .obj _, .arr _ =>
    isFalse (by intro h; cases h)

def jsonListDecEq : (a b : List Json) → Decidable (a = b)
  | [], [] => isTrue rfl
  | [], _ :: _ => isFalse (by intro h; cases h)
  | _ :: _, [] => isFalse (by intro h; cases h)
  | x :: xs, y :: ys =>
    match jsonDecEq x y with
    | isTrue h1 =>
      match jsonListDecEq xs ys with
      | isTrue h2 => isTrue (by rw [h1, h2])
      | isFalse h2 => isFalse (by intro hc; cases hc; exact h2 rfl)
    | isFalse h1 => isFalse (by intro hc; cases hc; exact h1 rfl)

def jsonKVListDecEq : (a b : List (String × Json)) → Decidable (a = b)
  | [], [] => isTrue rfl
  | [], _ :: _ => isFalse (by intro h; cases h)
  | _ :: _, [] => isFalse (by intro h; cases h)
  | (k1, v1) :: xs, (k2, v2) :: ys =>
    match decEq k1 k2 with
    | isTrue hk =>
      match jsonDecEq v1 v2 with
      | isTrue h1 =>
        match jsonKVListDecEq xs ys with
        | isTrue h2 => isTrue (by rw [hk, h1, h2])
        | isFalse h2 => isFalse (by intro hc; cases hc; exact h2 rfl)
      | isFalse h1 => isFalse (by intro hc; cases hc; exact h1 rfl)
    | isFalse hk => isFalse (by intro hc; cases hc; exact hk rfl)

end

instance : DecidableEq Json := jsonDecEq

namespace Json

/-- Python truthiness of a parsed JSON value (`None`, `False`, `0`, `""`,
`[]`, `{}` are falsy). -/
def truthy : Json → Bool
  | .null => false
  | .bool b => b
  | .num n => n != 0
  | .str s => s ≠ ""
  | .arr xs => xs ≠ []
  | .obj kvs => kvs ≠ []

def isStr : Json → Bool
  | .str _ => true
  | _ => false

def isObj : Json → Bool
  | .obj _ => true
  | _ => false

def isArr : Json → Bool
  | .arr _ => true
  | _ => false

def getStr : Json → String
  | .str s => s
  | _ => ""

/-- `d.get(key, default)` on a Python dict (JSON objects parsed by
`json.loads` have unique keys; lookup returns the first binding). -/
def objGet (kvs : List (String × Json)) (key : String) (dflt : Json) : Json :=
  match kvs.find? (fun kv => kv.1 = key) with
  | some kv => kv.2
  | none => dflt

/-- `key in d` for a Python dict. -/
def objHasKey (kvs : List (String × Json)) (key : String) : Bool :=
  (kvs.find? (fun kv => kv.1 = key)).isSome

end Json

/-- Python `s.lower()`. Python lowercasing is full Unicode; the embedding
lowercases ASCII letters, which is what `Char.toLower` implements.  The
fixed "no contradiction" phrases compared against contain no cased
letters, so the approximation is inessential to the claims. -/
def pyLower (s : String) : String := s.map Char.toLower

/-- Python `s[:n]` on a string. -/
def pyTake (n : Nat) (s : String) : String := ⟨s.data.take n⟩

/-! ## integration_services.py — `update_overall_conclusion_and_log_contradictions`

The function reads the previous overall conclusion from the shared CWP
state, performs one LLM call expecting a JSON object, writes the updated
conclusion back, and possibly appends one entry to the contradiction
logbook.  `json.loads` can yield any JSON value, and a prior (buggy)
write can have stored a non-string under the conclusion key, so the
conclusion cell is modelled as an optional `Json` value. -/

/-- One entry of `contradiction_logbook` (source lines 76–83).  The
timestamp produced by `datetime.now()` is an oracle input. -/
structure ContradictionEntry where
  timestamp : String
  module_name : String
  module_confidence : String
  contradiction_description : String
  module_finding_snippet : String
  previous_overall_conclusion_snippet : String
deriving Repr, DecidableEq

/-- The `integrated_insights` part of the CWP session state:
the value stored under `current_overall_financial_conclusion` (absent
key modelled as `none`) and the `contradiction_logbook` list. -/
structure InsightsState where
  conclusion : Option Json
  logbook : List ContradictionEntry
deriving Repr, DecidableEq

/-- Outcome of the LLM round trip (`llm.invoke` + code-fence stripping +
`json.loads`) as seen by the caller. -/
inductive LLMJsonOutcome where
  /-- `get_llm_instance()` returned a falsy client. -/
  | unavailable : LLMJsonOutcome
  /-- `llm.invoke` raised. -/
  | invokeError : LLMJsonOutcome
  /-- the response text failed `json.loads` (JSONDecodeError). -/
  | badJson : LLMJsonOutcome
  /-- the response parsed to this JSON value. -/
  | ok : Json → LLMJsonOutcome
deriving Repr, DecidableEq

/-- The fixed list of "no contradiction" phrasings (source line 75). -/
def noContradictionPhrases : List String :=
  ["无明显矛盾。", "无明显矛盾", "", "无矛盾", "未发现矛盾"]

/-- Default previous conclusion when the key is absent (source line 26). -/
def firstAnalysisDefault : String := "这是首次分析，尚无前期总体结论。"

/-- Embedding of `update_overall_conclusion_and_log_contradictions`
(integration_services.py lines 13–93).  Returns the new state together
with a flag recording whether a Python exception was raised inside the
`try` block (the source catches and logs it).  Exception points:
* `.get` on a non-dict parse result (AttributeError, before any write),
* slicing/concatenating a non-string `updated_conclusion` in the
  `log_event` call on line 73 (TypeError, after the conclusion write),
* `.lower()` on a non-string `contradiction_description` on line 75
  (AttributeError, after the conclusion write). -/
def update_overall_conclusion_and_log_contradictions
    (outcome : LLMJsonOutcome) (module_name new_finding_text new_finding_confidence : String)
    (now : String) (st : InsightsState) : InsightsState × Bool :=
  match outcome with
  | .unavailable => (st, false)
  | .invokeError => (st, true)
  | .badJson => (st, true)
  | .ok parsed =>
    let prev : Json :=
      match st.conclusion with
      | some v => v
      | none => .str firstAnalysisDefault
    match parsed with
    | .obj kvs =>
      let updated := Json.objGet kvs "updated_overall_conclusion" prev
      let contradiction_found := Json.objGet kvs "contradiction_found" (.bool false)
      let contradiction_description :=
        Json.objGet kvs "contradiction_description" (.str "未明确说明是否有矛盾。")
      -- line 72: the conclusion cell is assigned the parsed value
      let st1 : InsightsState := { st with conclusion := some updated }
      -- line 73 logs `updated_conclusion[:200]+"..."`: raises on non-strings
      if ¬ updated.isStr then (st1, true)
      else
        -- line 75: `contradiction_found and contradiction_description.lower() not in [...]`
        if contradiction_found.truthy then
          if ¬ contradiction_description.isStr then (st1, true)
          else if pyLower contradiction_description.getStr ∉ noContradictionPhrases then
            -- line 82 slices `prev_overall_conclusion[:300]`: raises if a previous
            -- buggy call stored a non-string under the conclusion key
            if ¬ prev.isStr then (st1, true)
            else
            let entry : ContradictionEntry :=
              { timestamp := now
                module_name := module_name
                module_confidence := new_finding_confidence
                contradiction_description := contradiction_description.getStr
                module_finding_snippet := pyTake 300 new_finding_text ++ "..."
                previous_overall_conclusion_snippet := pyTake 300 prev.getStr ++ "..." }
            ({ st1 with logbook := st1.logbook ++ [entry] }, false)
          else (st1, false)
        else (st1, false)
    | _ =>
      -- lines 68–70: `.get` on a non-dict raises AttributeError before any write
      (st, true)

/-- The previous conclusion as read on source line 26. -/
def prevConclusionOf (st : InsightsState) : Json :=
  match st.conclusion with
  | some v => v
  | none => .str firstAnalysisDefault

/-- True when the operation raises (or hits a JSON parse failure) before
the conclusion assignment of source line 72. -/
def preWriteFailure : LLMJsonOutcome → Bool
  | .invokeError => true
  | .badJson => true
  | .ok j => ¬ j.isObj
  | .unavailable => false

/-- One integration step: the pipeline invokes the integrator once per
completed module; this is its effect on the shared insights state. -/
structure IntegrationInput where
  outcome : LLMJsonOutcome
  module_name : String
  new_finding_text : String
  new_finding_confidence : String
  now : String
deriving Repr, DecidableEq

def integrationStep (inp : IntegrationInput) (st : InsightsState) : InsightsState :=
  (update_overall_conclusion_and_log_contradictions inp.outcome inp.module_name
    inp.new_finding_text inp.new_finding_confidence inp.now st).1

/-- N completed modules processed through the integrator in order. -/
def runIntegrations : List IntegrationInput → InsightsState → InsightsState
  | [], st => st
  | i :: is, st => runIntegrations is (integrationStep i st)

/-! ## planning_services.py — information-needs planning, route planning,
chunk selection -/

/-- The value a module is mapped to by `plan_all_module_information_needs`
after per-module validation: the `search_queries` kept (strings only)
and the `document_extractions` items kept (verbatim `Json` objects). -/
structure InfoNeed where
  search_queries : List String
  document_extractions : List Json
deriving Repr, DecidableEq

def emptyInfoNeed : InfoNeed := ⟨[], []⟩

/-- The per-item keep test on `document_extractions` entries
(planning_services.py lines 194–199): the item must be a dict, contain
the three required keys, and each of the three values must be a string.
Nothing rejects additional keys. -/
def isValidExtraction : Json → Bool
  | .obj kvs =>
    Json.objHasKey kvs "document_type" && Json.objHasKey kvs "period_label" &&
    Json.objHasKey kvs "analysis_context" &&
    (Json.objGet kvs "document_type" .null).isStr &&
    (Json.objGet kvs "period_label" .null).isStr &&
    (Json.objGet kvs "analysis_context" .null).isStr
  | _ => false

/-- `[q for q in sq if isinstance(q, str)] if isinstance(sq, list) else []`
(line 192). -/
def validateSearchQueries : Json → List String
  | .arr xs => (xs.filter Json.isStr).map Json.getStr
  | _ => []

/-- `[item for item in de if ...] if isinstance(de, list) else []`
(lines 193–200). -/
def validateExtractions : Json → List Json
  | .arr xs => xs.filter isValidExtraction
  | _ => []

/-- Validation of one module's plan object (lines 188–201). -/
def validateModulePlan (pkvs : List (String × Json)) : InfoNeed :=
  ⟨validateSearchQueries (Json.objGet pkvs "search_queries" (.arr [])),
   validateExtractions (Json.objGet pkvs "document_extractions" (.arr []))⟩

/-- Python dict assignment `d[k] = v` on an insertion-ordered dict
modelled as an association list: replace in place if present, else
append. -/
def pyDictInsert (d : List (String × α)) (k : String) (v : α) : List (String × α) :=
  if (d.find? (fun kv => kv.1 = k)).isSome then
    d.map fun kv => if kv.1 = k then (k, v) else kv
  else d ++ [(k, v)]

/-- Dict lookup returning the stored value. -/
def pyDictGet? (d : List (String × α)) (k : String) : Option α :=
  (d.find? (fun kv => kv.1 = k)).map (·.2)

/-- The value `plan_all_module_information_needs` stores for one
requested module when the top-level parse result is the object `kvs`. -/
def plannedValueFor (kvs : List (String × Json)) (m : String) : InfoNeed :=
  match Json.objGet kvs m .null with
  | .obj pkvs => if Json.objHasKey kvs m then validateModulePlan pkvs else emptyInfoNeed
  | _ => emptyInfoNeed

/-- Embedding of `plan_all_module_information_needs` (planning_services.py
lines 98–212), parameterised by the outcome of the single batched LLM
call.  When the client is unavailable, when `json.loads` fails, or when
any exception is raised, every requested module is mapped to the empty
default (lines 104–106 and 208–212).  A non-dict top-level parse result
also ends in the all-defaults mapping: either the membership test
`module_name in planned_needs` raises `TypeError` (int/float/bool/None),
or string-indexing a list/str raises on the first hit, or membership is
false for every module — all paths land on the empty defaults, via the
`except` return of line 212 or via the per-module `else` of line 204. -/
def plan_all_module_information_needs
    (modules_to_plan_for : List String) (outcome : LLMJsonOutcome) :
    List (String × InfoNeed) :=
  match outcome with
  | .ok (.obj kvs) =>
    modules_to_plan_for.foldl (fun d m => pyDictInsert d m (plannedValueFor kvs m)) []
  | _ => modules_to_plan_for.map fun m => (m, emptyInfoNeed)

/-- Embedding of `get_ai_planned_analysis_route` needs an outcome type
that carries the text of a raised exception, because the except-branch
rationale embeds `str(e)` (planning_services.py line 96). -/
inductive RouteLLMOutcome where
  | unavailable : RouteLLMOutcome
  | invokeError : String → RouteLLMOutcome
  | badJson : RouteLLMOutcome
  | ok : Json → RouteLLMOutcome
deriving Repr, DecidableEq

structure RoutePlan where
  planned_modules : List String
  planning_reasoning : String
deriving Repr, DecidableEq

/-- Python type name of a parsed JSON value, as it appears in exception
messages. -/
def pyTypeName : Json → String
  | .null => "NoneType"
  | .bool _ => "bool"
  | .num _ => "int"
  | .str _ => "str"
  | .arr _ => "list"
  | .obj _ => "dict"

/-- Message of the `AttributeError` raised by calling `.get` on a
non-dict parse result. -/
def attrErrGetMsg (j : Json) : String :=
  "\x27" ++ pyTypeName j ++ "\x27 object has no attribute \x27get\x27"

/-- Text of the `TypeError` raised by `planning_reasoning[:100]+"..."`
when the reasoning is not a string.  The exact Python message depends on
the type; only the fallback wording around it matters to the claims. -/
def sliceTypeErrMsg (j : Json) : String :=
  pyTypeName j ++ " cannot be sliced and concatenated with str"

/-- Embedding of `get_ai_planned_analysis_route` (planning_services.py
lines 13–96), parameterised by the LLM call outcome.  Every fallback
path returns the caller's full module list and a rationale ending in
"后备计划。" (fallback plan).  Note line 86 slices
`planning_reasoning[:100]` before the successful return, so a non-string
reasoning raises and lands in the except-branch of lines 94–96. -/
def get_ai_planned_analysis_route (outcome : RouteLLMOutcome)
    (all_available_modules_list : List String) : RoutePlan :=
  match outcome with
  | .unavailable =>
    ⟨all_available_modules_list, "LLM不可用，执行所有预定义模块作为后备计划。"⟩
  | .invokeError e =>
    ⟨all_available_modules_list,
     "AI规划器执行出错 (" ++ e ++ ")，已采用所有预定义模块作为后备计划。"⟩
  | .badJson =>
    ⟨all_available_modules_list, "AI规划返回非JSON格式，已采用所有预定义模块作为后备计划。"⟩
  | .ok (.obj kvs) =>
    let planned_modules := Json.objGet kvs "planned_modules" .null
    let planning_reasoning := Json.objGet kvs "planning_reasoning" (.str "AI未能提供规划理由。")
    match planned_modules with
    | .arr ms =>
      -- line 77: `if planned_modules and isinstance(planned_modules, list)
      --           and all(isinstance(m, str) for m in planned_modules)`
      if ms ≠ [] ∧ ms.all Json.isStr then
        let valid_planned_modules :=
          (ms.map Json.getStr).filter fun m => decide (m ∈ all_available_modules_list)
        if valid_planned_modules = [] then
          ⟨all_available_modules_list, "AI规划的模块列表无效，已采用所有预定义模块作为后备计划。"⟩
        else
          match planning_reasoning with
          | .str reasoning => ⟨valid_planned_modules, reasoning⟩
          | v =>
            ⟨all_available_modules_list,
             "AI规划器执行出错 (" ++ sliceTypeErrMsg v ++ ")，已采用所有预定义模块作为后备计划。"⟩
      else ⟨all_available_modules_list, "AI规划返回格式错误，已采用所有预定义模块作为后备计划。"⟩
    | _ => ⟨all_available_modules_list, "AI规划返回格式错误，已采用所有预定义模块作为后备计划。"⟩
  | .ok j =>
    -- `.get` on a non-dict parse result raises, caught at lines 94–96
    ⟨all_available_modules_list,
     "AI规划器执行出错 (" ++ attrErrGetMsg j ++ ")，已采用所有预定义模块作为后备计划。"⟩

/-- The filtered module list of the claim: the string names returned by
the LLM restricted to the known module list (empty for malformed
responses). -/
def filteredModulesOf (outcome : RouteLLMOutcome) (all : List String) : List String :=
  match outcome with
  | .ok (.obj kvs) =>
    match Json.objGet kvs "planned_modules" .null with
    | .arr ms =>
      if ms.all Json.isStr then (ms.map Json.getStr).filter (fun m => decide (m ∈ all))
      else []
    | _ => []
  | _ => []

/-- The keep test of line 222 on entries of `chunk_overviews_with_ids`. -/
def validOverviewFilter : Json → Bool
  | .obj kvs => Json.objHasKey kvs "chunk_id" && Json.objHasKey kvs "overview_text"
  | _ => false

/-- Embedding of `select_relevant_chunks_llm` (planning_services.py lines
215–264), parameterised by the LLM call outcome.  All failure branches
(unavailable client, empty inventory, invoke error, JSON decode error —
both caught by the `except Exception` of line 262 — non-dict parse
result, non-list `relevant_chunk_ids`, or a list with a non-string
element) return the empty list; an all-string list is returned verbatim
and is not filtered against the input inventory. -/
def select_relevant_chunks_llm (outcome : LLMJsonOutcome)
    (analysis_contexts : List String) (chunk_overviews_with_ids : List Json) : List String :=
  match outcome with
  | .unavailable => []
  | _ =>
    if chunk_overviews_with_ids = [] then []
    else
      let valid_overviews := chunk_overviews_with_ids.filter validOverviewFilter
      if valid_overviews = [] then []
      else
        match outcome with
        | .invokeError => []
        | .badJson => []
        | .unavailable => []
        | .ok (.obj kvs) =>
          match Json.objGet kvs "relevant_chunk_ids" (.arr []) with
          | .arr ids => if ids.all Json.isStr then ids.map Json.getStr else []
          | _ => []
        | .ok _ => []

/-! ## core_analysis_engine.py — document-extraction resolution
(`run_llm_module_analysis`, lines 62–105)

The planned `document_extractions` of one module are grouped by
`(document_type, period_label)`; each group is resolved with at most one
selector call and at most one compressor call.  The two LLM-backed
helpers are oracles here; the embedding records each call made. -/

/-- Python whitespace for `str.split()` / `str.strip()` / regex `\s`
(ASCII part; exotic Unicode space characters are not modelled). -/
def pySpaceChar (c : Char) : Bool :=
  c == ' ' || c == '\t' || c == '\n' || c == '\r' || c == '\x0b' || c == '\x0c'

/-- Python `s.strip()` on a character list. -/
def pyStripL (l : List Char) : List Char :=
  ((l.dropWhile pySpaceChar).reverse.dropWhile pySpaceChar).reverse

/-- Python `s.strip()` on a `String`. -/
def pyStripStr (s : String) : String := ⟨pyStripL s.data⟩

/-- One validated document-extraction request (three string fields). -/
structure ExtractionSpec where
  document_type : String
  period_label : String
  analysis_context : String
deriving Repr, DecidableEq

/-- One fully-preprocessed chunk as stored on a report entry. -/
structure ProcessedChunk where
  chunk_id : String
  original_text : String
  overview_text : String
deriving Repr, DecidableEq

/-- One entry of `cwp['base_data']['financial_reports']` (the fields the
extraction loop reads). -/
structure ReportEntry where
  period_label : String
  footnotes_processed_chunks : List ProcessedChunk
  mda_processed_chunks : List ProcessedChunk
deriving Repr, DecidableEq

/-- `grouped_extractions[key].append(...)` on the insertion-ordered
Python dict (engine lines 66–70). -/
def groupInsert (groups : List ((String × String) × List String))
    (key : String × String) (ctx : String) : List ((String × String) × List String) :=
  if (groups.find? (fun g => g.1 = key)).isSome then
    groups.map fun g => if g.1 = key then (g.1, g.2 ++ [ctx]) else g
  else groups ++ [(key, [ctx])]

/-- Grouping of the planned extractions by `(document_type, period_label)`. -/
def groupExtractions (de : List ExtractionSpec) : List ((String × String) × List String) :=
  de.foldl (fun gs e => groupInsert gs (e.document_type, e.period_label) e.analysis_context) []

/-- Chunk lookup of engine lines 74–77: find the report for the period,
then read `footnotes_processed_chunks` for doc type "footnotes" and
`mda_processed_chunks` for anything else. -/
def chunksForDoc (all_reports : List ReportEntry) (doc_type period_label : String) :
    List ProcessedChunk :=
  match all_reports.find? (fun r => r.period_label = period_label) with
  | some r =>
    if doc_type = "footnotes" then r.footnotes_processed_chunks
    else r.mda_processed_chunks
  | none => []

/-- `'; '.join(analysis_contexts)`. -/
def joinSemicolon (ctxs : List String) : String := String.intercalate "; " ctxs

/-- The compression context of engine line 94. -/
def combinedCompressionContext (module_name_full : String) (ctxs : List String) : String :=
  "为模块 \x27" ++ module_name_full ++ "\x27 分析以下方面：" ++ joinSemicolon ctxs

/-- Engine lines 87–91: concatenate the original texts of the selected
chunk ids (unknown ids are skipped with a warning). -/
def concatSelectedTexts (chunks : List ProcessedChunk) (ids : List String) : String :=
  ids.foldl
    (fun acc cid =>
      match chunks.find? (fun c => c.chunk_id = cid) with
      | some c => acc ++ c.original_text ++ "\n\n"
      | none => acc)
    ""

/-- Result of the document-extraction preparation, instrumented with the
list of selector calls (arguments: contexts, chunk inventory) and
compressor calls (arguments: concatenated text, compression context). -/
structure DocPrefetchResult where
  contents : List String
  selectorCalls : List (List String × List ProcessedChunk)
  compressorCalls : List (String × String)
deriving Repr, DecidableEq

/-- The body of `for (doc_type, period_label), analysis_contexts in
grouped_extractions.items()` (engine lines 72–99), instrumented.
`selector` and `compressor` are oracles standing for
`select_relevant_chunks_llm` and `compress_selected_text_llm`. -/
def prefetchStep (module_name_full : String) (all_reports : List ReportEntry)
    (selector : List String → List ProcessedChunk → List String)
    (compressor : String → String → String)
    (res : DocPrefetchResult) (g : (String × String) × List String) : DocPrefetchResult :=
  let dt := g.1.1
  let pl := g.1.2
  let ctxs := g.2
  let chunks := chunksForDoc all_reports dt pl
  if chunks = [] then
    { res with contents := res.contents ++
        ["未能提取文档 \x27" ++ dt ++ "\x27 (" ++ pl ++ ") 的内容：未找到预处理分块数据。"] }
  else
    let ids := selector ctxs chunks
    let res1 := { res with selectorCalls := res.selectorCalls ++ [(ctxs, chunks)] }
    if ids ≠ [] then
      let text := concatSelectedTexts chunks ids
      if pyStripStr text ≠ "" then
        let cctx := combinedCompressionContext module_name_full ctxs
        let compressed := compressor text cctx
        { res1 with
          contents := res1.contents ++
            ["从文档 \x27" ++ dt ++ "\x27 (" ++ pl ++ ") 中针对上下文 \x27" ++
             joinSemicolon ctxs ++ "\x27 提取并压缩的内容：\n" ++ compressed ++ "\n---"]
          compressorCalls := res1.compressorCalls ++ [(text, cctx)] }
      else
        { res1 with contents := res1.contents ++
            ["未能从文档 \x27" ++ dt ++ "\x27 (" ++ pl ++ ") 中为上下文 \x27" ++
             joinSemicolon ctxs ++ "\x27 提取到有效内容（选中的块为空）。"] }
    else
      { res1 with contents := res1.contents ++
          ["未能从文档 \x27" ++ dt ++ "\x27 (" ++ pl ++ ") 中为上下文 \x27" ++
           joinSemicolon ctxs ++ "\x27 确定相关内容块。"] }

/-- Embedding of the document-extraction resolution loop of
`run_llm_module_analysis` (core_analysis_engine.py lines 62–105). -/
def run_llm_module_analysis_doc_prefetch (module_name_full : String)
    (all_reports : List ReportEntry) (de : List ExtractionSpec)
    (selector : List String → List ProcessedChunk → List String)
    (compressor : String → String → String) : DocPrefetchResult :=
  (groupExtractions de).foldl
    (prefetchStep module_name_full all_reports selector compressor) ⟨[], [], []⟩

/-- First-occurrence deduplication (the key order of an
insertion-ordered Python dict). -/
def firstOccurrences (l : List (String × String)) : List (String × String) :=
  l.foldl (fun acc a => if a ∈ acc then acc else acc ++ [a]) []

/-- The distinct group keys of a planned extraction list, in first
occurrence order (the iteration order of the Python dict). -/
def extractionKeys (de : List ExtractionSpec) : List (String × String) :=
  firstOccurrences (de.map fun e => (e.document_type, e.period_label))

/-- All analysis contexts planned for one group key, in plan order. -/
def contextsOfKey (de : List ExtractionSpec) (key : String × String) : List String :=
  (de.filter fun e => decide ((e.document_type, e.period_label) = key)).map
    (·.analysis_context)

/-- The grouped extractions as the claim describes them: one entry per
distinct `(document_type, period_label)` key in first-occurrence order,
carrying all of that group's analysis contexts in plan order. -/
def groupedView (de : List ExtractionSpec) : List ((String × String) × List String) :=
  (extractionKeys de).map fun k => (k, contextsOfKey de k)

/-! ## utils.py — `get_prior_analyses_summary` (lines 117–169) -/

/-- The fields of one module's output that the prior-analyses summary
path reads.  `abbreviated_summary` is `None` at creation (engine line
182) and populated lazily. -/
structure ModuleOutput where
  status : String
  text_summary : String
  abbreviated_summary : Option String
deriving Repr, DecidableEq

/-- `MODULE_DEPENDENCIES` from config.py. -/
def MODULE_DEPENDENCIES : List (String × List String) :=
  [("1.2 SWOT 分析", ["1.1 波特五力模型"]),
   ("1.5 财务报表结构与趋势分析", ["1.1 波特五力模型", "1.2 SWOT 分析", "1.4 公司治理与管理层素质评估"]),
   ("2.2 杜邦分析", ["2.1 综合比率分析"]),
   ("3.1 财务报表附注深度解读与关键会计政策评估", ["1.4 公司治理与管理层素质评估"]),
   ("3.3 Dechow F-Score (理念)", ["3.1 财务报表附注深度解读与关键会计政策评估", "3.2 Beneish M-Score", "3.4 应计项目分析"]),
   ("3.5 经营活动现金流量与净利润的比较分析", ["3.4 应计项目分析"]),
   ("4.1 Altman Z-Score", ["2.1 综合比率分析"]),
   ("4.2 Ohlson O-Score (如适用)", ["2.1 综合比率分析"]),
   ("4.3 利息保障倍数及现金流偿债能力分析", ["2.1 综合比率分析", "3.5 经营活动现金流量与净利润的比较分析"]),
   ("4.4 营运资金充足性与流动性分析", ["2.1 综合比率分析"]),
   ("5.1 可持续增长率模型 (SGR)", ["2.1 综合比率分析", "2.2 杜邦分析"]),
   ("5.2 内部增长率模型 (IGR)", ["2.1 综合比率分析"]),
   ("5.3 再投资率 (RR) 与投入资本回报率 (ROIC) 分析", ["2.1 综合比率分析", "6.2 成本与费用结构预测探讨"]),
   ("5.4 盈利与现金流增长匹配度分析", ["2.1 综合比率分析", "3.5 经营活动现金流量与净利润的比较分析"]),
   ("6.1 销售预测方法探讨", ["1.2 SWOT 分析", "2.1 综合比率分析"]),
   ("6.2 成本与费用结构预测探讨", ["6.1 销售预测方法探讨", "2.1 综合比率分析"]),
   ("6.3 资产负债表项目预测探讨", ["6.1 销售预测方法探讨", "6.2 成本与费用结构预测探讨", "2.1 综合比率分析", "4.4 营运资金充足性与流动性分析"]),
   ("6.4 三表联动模型构建提示", ["6.1 销售预测方法探讨", "6.2 成本与费用结构预测探讨", "6.3 资产负债表项目预测探讨"]),
   ("6.5 情景分析与敏感性测试提示", ["6.4 三表联动模型构建提示"]),
   ("7.1 公司自由现金流模型 (FCFF)", ["6.4 三表联动模型构建提示", "5.3 再投资率 (RR) 与投入资本回报率 (ROIC) 分析"]),
   ("7.2 股权自由现金流模型 (FCFE)", ["6.4 三表联动模型构建提示"]),
   ("7.3 股利贴现模型 (DDM)", ["6.4 三表联动模型构建提示"]),
   ("7.4 剩余收益模型 (RIM)", ["6.4 三表联动模型构建提示"]),
   ("7.5 可比公司分析/市场乘数法", ["1.1 波特五力模型", "1.2 SWOT 分析", "2.1 综合比率分析"]),
   ("7.6 基于账面价值的估值", ["1.5 财务报表结构与趋势分析", "3.1 财务报表附注深度解读与关键会计政策评估"])]

/-- `MODULE_DEPENDENCIES.get(current_module_name, [])`. -/
def moduleDependenciesOf (m : String) : List String :=
  match MODULE_DEPENDENCIES.find? (fun kv => kv.1 = m) with
  | some kv => kv.2
  | none => []

/-- Result of one summarization `llm.invoke`. -/
inductive SummarizeResult where
  | ok : String → SummarizeResult
  | raise : String → SummarizeResult
deriving Repr, DecidableEq

/-- The summarization prompt of utils.py line 144. -/
def summarizationPrompt (current_module_name input_text : String) : String :=
  "请将以下文本内容精确地总结为一段不超过1000个汉字的关键信息摘要。此摘要将作为后续财务分析模块 \x27" ++
  current_module_name ++
  "\x27 的重要参考输入。请确保摘要保留所有核心观点、关键数据和重要结论，同时尽可能简洁。原始文本如下：\n---\n" ++
  input_text ++ "\n---\n1000字以内的摘要："

/-- In-place update of one module's stored output. -/
def assocUpdate (outputs : List (String × ModuleOutput)) (k : String)
    (f : ModuleOutput → ModuleOutput) : List (String × ModuleOutput) :=
  outputs.map fun kv => if kv.1 = k then (kv.1, f kv.2) else kv

/-- Threaded state of the dependency loop: the module-output map, the
collected summary parts, and the names of the dependencies for which a
summarization LLM call was issued. -/
structure PriorSummaryState where
  outputs : List (String × ModuleOutput)
  parts : List String
  calls : List String
deriving Repr, DecidableEq

/-- One iteration of the dependency loop (utils.py lines 129–165). -/
def processDep (llm : Option (String → SummarizeResult)) (current_module_name : String)
    (st : PriorSummaryState) (dep : String) : PriorSummaryState :=
  match pyDictGet? st.outputs dep with
  | none => st
  | some o =>
    if o.status = "Completed" then
      -- line 133: truthiness of `.get('abbreviated_summary')`
      -- (both a missing value and an empty string are falsy)
      let cachedIsTruthy : Bool := match o.abbreviated_summary with
        | some s => s != ""
        | none => false
      if cachedIsTruthy then
        { st with parts := st.parts ++
            ["来自模块“" ++ dep ++ "”的缩略摘要：\n" ++ o.abbreviated_summary.getD ""] }
      else if o.text_summary ≠ "" then
        let input := pyTake 15000 o.text_summary
        let prompt := summarizationPrompt current_module_name input
        match llm with
        | some oracle =>
          match oracle prompt with
          | .ok t =>
            { outputs := assocUpdate st.outputs dep
                (fun od => { od with abbreviated_summary := some t })
              parts := st.parts ++ ["来自模块“" ++ dep ++ "”的缩略摘要：\n" ++ t]
              calls := st.calls ++ [dep] }
          | .raise _ =>
            { st with
              parts := st.parts ++
                ["来自模块“" ++ dep ++ "”的结论摘要 (生成缩略版失败，使用部分原文)：\n" ++
                 pyTake 300 o.text_summary ++ "..."]
              calls := st.calls ++ [dep] }
        | none =>
          { st with parts := st.parts ++
              ["来自模块“" ++ dep ++ "”的结论摘要 (LLM不可用，使用部分原文)：\n" ++
               pyTake 300 o.text_summary ++ "..."] }
      else st
    else st

/-- Embedding of `get_prior_analyses_summary` (utils.py lines 117–169).
Returns the summary string, the (possibly updated) module-output map and
the list of dependencies for which a summarization call was issued. -/
def get_prior_analyses_summary (llm : Option (String → SummarizeResult))
    (current_module_name : String) (outputs : List (String × ModuleOutput)) :
    String × List (String × ModuleOutput) × List String :=
  let dependencies := moduleDependenciesOf current_module_name
  if dependencies = [] then
    ("无特定的前序模块分析结论可供直接参考，或依赖关系未定义。", outputs, [])
  else
    let st := dependencies.foldl (processDep llm current_module_name) ⟨outputs, [], []⟩
    (if st.parts = [] then "未能获取任何相关的前序模块分析结论摘要。"
     else String.intercalate "\n\n" st.parts,
     st.outputs, st.calls)

/-- Number of summarization calls issued for one module by one
`get_prior_analyses_summary` run. -/
def summarizeCallsFor (calls : List String) (dep : String) : Nat :=
  (calls.filter fun c => decide (c = dep)).length

/-- Claim-side predicate: the item is an object carrying the three
required fields `document_type`, `period_label`, `analysis_context`,
each with a string value. -/
def hasThreeStringFields : Json → Bool
  | .obj ikvs =>
    (Json.objHasKey ikvs "document_type" && (Json.objGet ikvs "document_type" .null).isStr) &&
    (Json.objHasKey ikvs "period_label" && (Json.objGet ikvs "period_label" .null).isStr) &&
    (Json.objHasKey ikvs "analysis_context" && (Json.objGet ikvs "analysis_context" .null).isStr)
  | _ => false

/-! ## document_processing.py — `smart_chunk_document` (lines 11–80)

Python strings are embedded as `List Char`.  The regex machinery of
`section_patterns` is embedded concretely: each pattern is a
deterministic matcher on a suffix (the five patterns are backtracking
free, because in each of them every greedy sub-pattern is followed by a
character class disjoint from it), and `re.finditer`'s non-overlapping
left-to-right scan is the fueled `scanPattern`.  Python's `\d` matches
any Unicode decimal digit; the embedding uses ASCII digits
(`Char.isDigit`), and `\s` / `str.split()` / `str.strip()` whitespace is
`pySpaceChar` (the ASCII whitespace characters). -/

/-- Extend the first token with a leading character (used when a
non-whitespace character is followed by more non-whitespace). -/
def consHead (c : Char) : List (List Char) → List (List Char)
  | [] => [[c]]
  | t :: ts => (c :: t) :: ts

/-- Python `str.split()` with no separator: the maximal runs of
non-whitespace characters. -/
def tokens : List Char → List (List Char)
  | [] => []
  | [c] => if pySpaceChar c then [] else [[c]]
  | c :: d :: cs =>
    if pySpaceChar c then tokens (d :: cs)
    else if pySpaceChar d then [c] :: tokens (d :: cs)
    else consHead c (tokens (d :: cs))

/-- Python `" ".join(words)`. -/
def joinSpace (ws : List (List Char)) : List Char := List.intercalate [' '] ws

/-- Consume one expected character. -/
def expectChar (c : Char) : List Char → Option (List Char)
  | d :: rest => if d = c then some rest else none
  | [] => none

/-- Consume one character of a class. -/
def expectClass (p : Char → Bool) : List Char → Option (List Char)
  | d :: rest => if p d then some rest else none
  | [] => none

/-- Consume a non-empty maximal run of a class (`[...]+`; exact because
every use is followed by a class disjoint from `p`). -/
def expectPlus (p : Char → Bool) : List Char → Option (List Char)
  | d :: rest => if p d then some (rest.dropWhile p) else none
  | [] => none

/-- Consume a possibly-empty maximal run (`[...]*`). -/
def skipStar (p : Char → Bool) (l : List Char) : List Char := l.dropWhile p

/-- `(\.\d+)*`: repeatedly consume a dot followed by a digit run. -/
def dotDigitsStar : Nat → List Char → List Char
  | 0, l => l
  | fuel + 1, l =>
    match l with
    | '.' :: d :: rest =>
      if d.isDigit then dotDigitsStar fuel ((d :: rest).dropWhile Char.isDigit)
      else l
    | _ => l

/-- The numeral character class
`[一二三四五六七八九十零百千万亿\d零一二三四五六七八九十]` (duplicates in
the source class are irrelevant). -/
def isNumClassChar (c : Char) : Bool :=
  c == '一' || c == '二' || c == '三' || c == '四' || c == '五' ||
  c == '六' || c == '七' || c == '八' || c == '九' || c == '十' ||
  c == '零' || c == '百' || c == '千' || c == '万' || c == '亿' || c.isDigit

/-- Pattern 1: `\n\s*(附注\s*[NUM]+[、．\.])`. -/
def patFuzhu (l : List Char) : Option (List Char) :=
  match expectChar '\n' l with
  | none => none
  | some l1 =>
    match expectChar '附' (skipStar pySpaceChar l1) with
    | none => none
    | some l2 =>
      match expectChar '注' l2 with
      | none => none
      | some l3 =>
        match expectPlus isNumClassChar (skipStar pySpaceChar l3) with
        | none => none
        | some l4 => expectClass (fun c => c == '、' || c == '．' || c == '.') l4

/-- Pattern 2: `\n\s*([（(][NUM]+[）)\.])`. -/
def patParenNum (l : List Char) : Option (List Char) :=
  match expectChar '\n' l with
  | none => none
  | some l1 =>
    match expectClass (fun c => c == '（' || c == '(') (skipStar pySpaceChar l1) with
    | none => none
    | some l2 =>
      match expectPlus isNumClassChar l2 with
      | none => none
      | some l3 => expectClass (fun c => c == '）' || c == ')' || c == '.') l3

/-- Pattern 3: `\n\s*([NUM]+[、．\.])`. -/
def patNumDot (l : List Char) : Option (List Char) :=
  match expectChar '\n' l with
  | none => none
  | some l1 =>
    match expectPlus isNumClassChar (skipStar pySpaceChar l1) with
    | none => none
    | some l2 => expectClass (fun c => c == '、' || c == '．' || c == '.') l2

/-- Pattern 4: `\n\s*(§\s*\d+(\.\d+)*)`. -/
def patSection (l : List Char) : Option (List Char) :=
  match expectChar '\n' l with
  | none => none
  | some l1 =>
    match expectChar '§' (skipStar pySpaceChar l1) with
    | none => none
    | some l2 =>
      match expectPlus Char.isDigit (skipStar pySpaceChar l2) with
      | none => none
      | some l3 => some (dotDigitsStar l3.length l3)

/-- Pattern 5: `\n\n+`. -/
def patBlank (l : List Char) : Option (List Char) :=
  match expectChar '\n' l with
  | none => none
  | some l1 => expectPlus (fun c => c == '\n') l1

/-- `re.finditer`: scan left to right; on a match restart after its end,
otherwise advance one position.  Records the match start positions.
`fuel` bounds the recursion (the caller passes the text length; each
step consumes at least one character). -/
def scanPattern (pat : List Char → Option (List Char)) :
    Nat → List Char → Nat → List Nat
  | 0, _, _ => []
  | fuel + 1, l, i =>
    match l with
    | [] => []
    | c :: cs =>
      match pat (c :: cs) with
      | some rest => i :: scanPattern pat fuel rest (i + ((c :: cs).length - rest.length))
      | none => scanPattern pat fuel cs (i + 1)

/-- The match start positions of all five `section_patterns`
(document_processing.py lines 20–31). -/
def sectionStartPoints (text : List Char) : List Nat :=
  scanPattern patFuzhu text.length text 0 ++
  scanPattern patParenNum text.length text 0 ++
  scanPattern patNumDot text.length text 0 ++
  scanPattern patSection text.length text 0 ++
  scanPattern patBlank text.length text 0

/-- `sorted(list(set([0] + starts + [len(text)])))` (lines 28–33). -/
def splitPoints (text : List Char) : List Nat :=
  List.insertionSort (· ≤ ·) ((0 :: sectionStartPoints text ++ [text.length]).dedup)

/-- `text[split_points[i]:split_points[i+1]]` for consecutive points
(lines 35–37). -/
def rawSlices (text : List Char) : List Nat → List (List Char)
  | a :: b :: rest => ((text.drop a).take (b - a)) :: rawSlices text (b :: rest)
  | _ => []

/-- The stripped, non-empty sections of the structural split
(lines 35–39). -/
def rawSectionsMain (text : List Char) : List (List Char) :=
  (rawSlices text (splitPoints text)).filterMap fun s =>
    let t := pyStripL s
    if t = [] then none else some t

/-- Python `text.split("\n\n")` (an exact two-newline separator,
non-overlapping, left to right). -/
def splitOn2NL : List Char → List (List Char)
  | [] => [[]]
  | '\n' :: '\n' :: rest => [] :: splitOn2NL rest
  | c :: rest =>
    match splitOn2NL rest with
    | p :: ps => (c :: p) :: ps
    | [] => [[c]]

/-- Python `text.split("\n")`. -/
def splitOn1NL : List Char → List (List Char)
  | [] => [[]]
  | '\n' :: rest => [] :: splitOn1NL rest
  | c :: rest =>
    match splitOn1NL rest with
    | p :: ps => (c :: p) :: ps
    | [] => [[c]]

/-- `[p.strip() for p in parts if p.strip()]`. -/
def stripNonEmpty (parts : List (List Char)) : List (List Char) :=
  parts.filterMap fun p =>
    let t := pyStripL p
    if t = [] then none else some t

/-- The section list including the fallbacks of lines 41–44 (which are
unreachable when the input has non-whitespace content, since the
structural slices cover the whole text). -/
def raw_sections_of (text : List Char) (max_chars : Nat) : List (List Char) :=
  let rs := rawSectionsMain text
  if rs = [] then
    let rs2 := stripNonEmpty (splitOn2NL text)
    if rs2 = [] ∨ (rs2.length = 1 ∧ (rs2.headD []).length > max_chars * 2) then
      stripNonEmpty (splitOn1NL text)
    else rs2
  else rs

/-- The `while len(word) > max_chars` hard-split loop of lines 62–68:
returns the emitted `max_chars`-sized pieces and the final remainder
(the caller passes `fuel = word.length`; for `max_chars = 0` the Python
loop would not terminate, and every claim assumes `max_chars ≥ 1`). -/
def hsAux (m : Nat) : Nat → List Char → List (List Char) × List Char
  | 0, w => ([], w)
  | fuel + 1, w =>
    if m < w.length then
      let r := hsAux m fuel (w.drop m)
      (w.take m :: r.1, r.2)
    else ([], w)

def hardSplitPieces (m : Nat) (w : List Char) : List (List Char) × List Char :=
  hsAux m w.length w

/-- The token-greedy packing state: emitted chunk texts, the current
`temp_chunk` word list and `current_len`. -/
structure PackState where
  chunks : List (List Char)
  temp : List (List Char)
  currentLen : Nat
deriving Repr, DecidableEq

/-- One iteration of `for word in words` (lines 52–70). -/
def stepWord (m : Nat) (st : PackState) (w : List Char) : PackState :=
  if st.currentLen + w.length + 1 > m then
    let st1 := if st.temp ≠ [] then
        { chunks := st.chunks ++ [joinSpace st.temp], temp := ([] : List (List Char)),
          currentLen := 0 }
      else st
    let hs := hardSplitPieces m w
    let st2 := { st1 with chunks := st1.chunks ++ hs.1 }
    { st2 with temp := st2.temp ++ [hs.2], currentLen := st2.currentLen + hs.2.length + 1 }
  else
    { st with temp := st.temp ++ [w], currentLen := st.currentLen + w.length + 1 }

/-- Packing of one section: fresh `temp_chunk`/`current_len`, fold over
`section_content.split()`, final flush (lines 47–77). -/
def runSection (m : Nat) (st : PackState) (section_content : List Char) : PackState :=
  let st1 := (tokens section_content).foldl (stepWord m)
    { chunks := st.chunks, temp := ([] : List (List Char)), currentLen := 0 }
  if st1.temp ≠ [] then
    { chunks := st1.chunks ++ [joinSpace st1.temp], temp := ([] : List (List Char)),
      currentLen := 0 }
  else st1

structure Chunk where
  chunk_id : String
  text : List Char
deriving Repr, DecidableEq

/-- `f"{doc_type}_{period_label.replace(' ', '_')}_{chunk_idx}"`. -/
def chunkIdFor (doc_type period_label : String) (idx : Nat) : String :=
  doc_type ++ "_" ++ (period_label.map fun c => if c = ' ' then '_' else c) ++ "_" ++
  toString idx

def CHUNK_MAX_CHARS_FOR_OVERVIEW : Nat := 4000

/-- Attach the sequential chunk ids (`chunk_idx` counts every emitted
chunk across the whole document). -/
def attachIds (doc_type period_label : String) (idx : Nat) : List (List Char) → List Chunk
  | [] => []
  | t :: ts => ⟨chunkIdFor doc_type period_label idx, t⟩ :: attachIds doc_type period_label (idx + 1) ts

/-- Embedding of `smart_chunk_document` (document_processing.py lines
11–80). -/
def smart_chunk_document (text : List Char) (doc_type period_label : String)
    (max_chars : Nat) : List Chunk :=
  if text = [] ∨ pyStripL text = [] then []
  else
    let raw_sections := raw_sections_of text max_chars
    let final := raw_sections.foldl (runSection max_chars) ⟨[], [], 0⟩
    attachIds doc_type period_label 0 final.chunks

/-- `t` is empty or begins with a whitespace character (the shape of
every suffix cut at a structural split point). -/
def spaceOrNil : List Char → Prop
  | [] => True
  | c :: _ => pySpaceChar c = true

/-- The token sequence of all emitted chunk texts, in order. -/
def chunksTokens (st : PackState) : List (List Char) :=
  (st.chunks.map tokens).flatten

/-- Sum of the word lengths in `temp_chunk`. -/
def sumLens (ws : List (List Char)) : Nat := (ws.map List.length).sum

/-- Each single integration leaves the logbook unchanged or appends one entry. -/
theorem integrationStep_logbook (inp : IntegrationInput) (st : InsightsState) :
    (integrationStep inp st).logbook = st.logbook ∨
    ∃ e, (integrationStep inp st).logbook = st.logbook ++ [e] := by
  unfold integrationStep update_overall_conclusion_and_log_contradictions
  cases inp.outcome with
  | unavailable => exact Or.inl rfl
  | invokeError => exact Or.inl rfl
  | badJson => exact Or.inl rfl
  | ok parsed =>
    cases parsed with
    | obj kvs =>
      simp only []
      split
      · exact Or.inl rfl
      · split
        · split
          · exact Or.inl rfl
          · split
            · split
              · exact Or.inl rfl
              · exact Or.inr ⟨_, rfl⟩
            · exact Or.inl rfl
        · exact Or.inl rfl
    | null => exact Or.inl rfl
    | bool b => exact Or.inl rfl
    | num n => exact Or.inl rfl
    | str s => exact Or.inl rfl
    | arr xs => exact Or.inl rfl

/-- The logbook after a run extends the logbook before it. -/
theorem runIntegrations_logbook (inputs : List IntegrationInput) (st : InsightsState) :
    (∃ t, (runIntegrations inputs st).logbook = st.logbook ++ t ∧
      t.length ≤ inputs.length) := by
  induction inputs generalizing st with
  | nil => exact ⟨[], by simp [runIntegrations]⟩
  | cons i is ih =>
    obtain ⟨t, ht, hlen⟩ := ih (integrationStep i st)
    rcases integrationStep_logbook i st with h1 | ⟨e, h1⟩
    · exact ⟨t, by simpa [runIntegrations, h1] using ht, le_trans hlen (by simp)⟩
    · refine ⟨e :: t, ?_, by simpa using Nat.succ_le_succ hlen⟩
      simpa [runIntegrations, h1] using ht

/-- Claim C8: after N completed modules have been processed through the
conclusion integrator, the contradiction log's length is at most N
(starting from an empty log); the log only grows within a run — every
prior logbook is a prefix of the later one — and each integration
appends at most one entry, never removing or rewriting existing ones. -/
theorem claim_C8 (inputs : List IntegrationInput) (st0 : InsightsState) :
    (st0.logbook = [] → (runIntegrations inputs st0).logbook.length ≤ inputs.length)
    ∧ (∃ t, (runIntegrations inputs st0).logbook = st0.logbook ++ t)
    ∧ (∀ inp st, (integrationStep inp st).logbook = st.logbook ∨
        ∃ e, (integrationStep inp st).logbook = st.logbook ++ [e]) := by
  obtain ⟨t, ht, hlen⟩ := runIntegrations_logbook inputs st0
  refine ⟨?_, ⟨t, ht⟩, integrationStep_logbook⟩
  intro h0
  rw [ht, h0]
  simpa using hlen

theorem claim_C8_witness :
    (runIntegrations
      [⟨.badJson, "m", "f", "c", "t"⟩] ⟨some (.str "Y"), []⟩).logbook.length ≤ 1 :=
  (claim_C8 [⟨.badJson, "m", "f", "c", "t"⟩] ⟨some (.str "Y"), []⟩).1 rfl

/-- Claim C1 (counterexample): the claim says that whenever any exception
is raised during `update_overall_conclusion_and_log_contradictions`, the
overall conclusion is unchanged.  But when the LLM returns a valid JSON
object whose `contradiction_description` is a number, the conclusion is
assigned on line 72 and only afterwards does `.lower()` on line 75 raise
(swallowed by `except Exception`), leaving the conclusion changed. -/
theorem claim_C1_counterexample :
    ((update_overall_conclusion_and_log_contradictions
        (.ok (.obj [("updated_overall_conclusion", .str "X"),
                    ("contradiction_found", .bool true),
                    ("contradiction_description", .num 5)]))
        "mod" "finding" "90%" "2026-10-12 00:00:00" ⟨some (.str "Y"), []⟩).2 = true)
    ∧ ((update_overall_conclusion_and_log_contradictions
        (.ok (.obj [("updated_overall_conclusion", .str "X"),
                    ("contradiction_found", .bool true),
                    ("contradiction_description", .num 5)]))
        "mod" "finding" "90%" "2026-10-12 00:00:00" ⟨some (.str "Y"), []⟩).1.conclusion
      ≠ some (.str "Y")) := by
  refine ⟨rfl, ?_⟩
  decide

/-- Claim C1 (amended): if the LLM response fails JSON parsing, or an
exception is raised before the conclusion assignment of line 72 (invoke
error, parse failure, or a non-object parse result), the whole insights
state — in particular the overall conclusion — is unchanged.  An
exception raised after that assignment leaves the conclusion equal to
the fully-assigned parsed `updated_overall_conclusion` value, never a
partial mixture: whenever an exception occurs, the conclusion after the
call is either its previous value or that complete parsed value. -/
theorem claim_C1_amended (outcome : LLMJsonOutcome)
    (module_name new_finding_text new_finding_confidence now : String) (st : InsightsState) :
    (preWriteFailure outcome = true →
      (update_overall_conclusion_and_log_contradictions outcome module_name
        new_finding_text new_finding_confidence now st).1 = st)
    ∧ ((update_overall_conclusion_and_log_contradictions outcome module_name
        new_finding_text new_finding_confidence now st).2 = true →
      (update_overall_conclusion_and_log_contradictions outcome module_name
        new_finding_text new_finding_confidence now st).1.conclusion = st.conclusion
      ∨ ∃ kvs, outcome = .ok (.obj kvs) ∧
        (update_overall_conclusion_and_log_contradictions outcome module_name
          new_finding_text new_finding_confidence now st).1.conclusion
        = some (Json.objGet kvs "updated_overall_conclusion" (prevConclusionOf st))) := by
  cases outcome with
  | unavailable =>
    refine ⟨fun h => by simp [preWriteFailure] at h, fun h => ?_⟩
    simp [update_overall_conclusion_and_log_contradictions] at h
  | invokeError => exact ⟨fun _ => rfl, fun _ => Or.inl rfl⟩
  | badJson => exact ⟨fun _ => rfl, fun _ => Or.inl rfl⟩
  | ok parsed =>
    cases parsed with
    | obj kvs =>
      refine ⟨fun h => by simp [preWriteFailure, Json.isObj] at h,
        fun _ => Or.inr ⟨kvs, rfl, ?_⟩⟩
      unfold update_overall_conclusion_and_log_contradictions
      dsimp only
      split_ifs <;> rfl
    | null => exact ⟨fun _ => rfl, fun _ => Or.inl rfl⟩
    | bool b => exact ⟨fun _ => rfl, fun _ => Or.inl rfl⟩
    | num n => exact ⟨fun _ => rfl, fun _ => Or.inl rfl⟩
    | str s => exact ⟨fun _ => rfl, fun _ => Or.inl rfl⟩
    | arr xs => exact ⟨fun _ => rfl, fun _ => Or.inl rfl⟩

theorem claim_C1_witness :
    preWriteFailure .badJson = true ∧
    (update_overall_conclusion_and_log_contradictions .badJson "m" "f" "c" "t"
      ⟨some (.str "Y"), []⟩).1 = ⟨some (.str "Y"), []⟩ :=
  ⟨rfl, (claim_C1_amended .badJson "m" "f" "c" "t" ⟨some (.str "Y"), []⟩).1 rfl⟩

/-! ### Association-list lemmas for the Python dict model -/

theorem find?_replace_of_isSome (d : List (String × α)) (k : String) (v : α)
    (h : (d.find? (fun kv => kv.1 = k)).isSome) :
    (d.map fun kv => if kv.1 = k then (k, v) else kv).find? (fun kv => kv.1 = k)
      = some (k, v) := by
  induction d with
  | nil => simp at h
  | cons kv0 rest ih =>
    by_cases hk : kv0.1 = k
    · simp only [List.map_cons, if_pos hk]
      exact List.find?_cons_of_pos _ (by simp)
    · simp only [List.map_cons, if_neg hk]
      rw [List.find?_cons_of_neg _ (by simpa using hk)]
      apply ih
      rwa [List.find?_cons_of_neg _ (by simpa using hk)] at h

theorem find?_replace_other (d : List (String × α)) (k : String) (v : α) (k2 : String)
    (hne : k2 ≠ k) :
    (d.map fun kv => if kv.1 = k then (k, v) else kv).find? (fun kv => kv.1 = k2)
      = d.find? (fun kv => kv.1 = k2) := by
  induction d with
  | nil => simp
  | cons kv0 rest ih =>
    by_cases hk : kv0.1 = k
    · simp only [List.map_cons, if_pos hk]
      rw [List.find?_cons_of_neg _ (by simpa using hne.symm),
        List.find?_cons_of_neg _
          (by simp only [decide_eq_true_eq]; exact fun h => hne (h ▸ hk))]
      exact ih
    · simp only [List.map_cons, if_neg hk]
      by_cases hk2 : kv0.1 = k2
      · rw [List.find?_cons_of_pos _ (by simpa using hk2),
          List.find?_cons_of_pos _ (by simpa using hk2)]
      · rw [List.find?_cons_of_neg _ (by simpa using hk2),
          List.find?_cons_of_neg _ (by simpa using hk2)]
        exact ih

theorem find?_pyDictInsert_self (d : List (String × α)) (k : String) (v : α) :
    (pyDictInsert d k v).find? (fun kv => kv.1 = k) = some (k, v) := by
  unfold pyDictInsert
  split
  · exact find?_replace_of_isSome d k v (by assumption)
  · rename_i h
    rw [List.find?_append]
    have hnone : d.find? (fun kv => decide (kv.1 = k)) = none :=
      Option.not_isSome_iff_eq_none.mp h
    rw [hnone]
    simp

theorem find?_pyDictInsert_other (d : List (String × α)) (k : String) (v : α) (k2 : String)
    (hne : k2 ≠ k) :
    (pyDictInsert d k v).find? (fun kv => kv.1 = k2)
      = d.find? (fun kv => kv.1 = k2) := by
  unfold pyDictInsert
  split
  · exact find?_replace_other d k v k2 hne
  · rw [List.find?_append]
    cases hfd : d.find? (fun kv => decide (kv.1 = k2)) with
    | some a => simp
    | none => simp [hne.symm]

theorem find?_foldl_pyDictInsert (g : String → α) (modules : List String)
    (d : List (String × α)) (m : String)
    (h : m ∈ modules ∨ d.find? (fun kv => kv.1 = m) = some (m, g m)) :
    (modules.foldl (fun d2 m2 => pyDictInsert d2 m2 (g m2)) d).find? (fun kv => kv.1 = m)
      = some (m, g m) := by
  induction modules generalizing d with
  | nil =>
    rcases h with h | h
    · simp at h
    · simpa using h
  | cons m0 ms ih =>
    simp only [List.foldl_cons]
    rcases h with h | h
    · rcases List.mem_cons.mp h with rfl | hm
      · exact ih (pyDictInsert d m (g m)) (Or.inr (find?_pyDictInsert_self d m (g m)))
      · exact ih (pyDictInsert d m0 (g m0)) (Or.inl hm)
    · by_cases he : m = m0
      · subst he
        exact ih (pyDictInsert d m (g m)) (Or.inr (find?_pyDictInsert_self d m (g m)))
      · refine ih (pyDictInsert d m0 (g m0)) (Or.inr ?_)
        rw [find?_pyDictInsert_other d m0 (g m0) m he]
        exact h

theorem pyDictGet?_constMap (modules : List String) (c : α) (m : String) (hm : m ∈ modules) :
    pyDictGet? (modules.map fun m2 => (m2, c)) m = some c := by
  unfold pyDictGet?
  induction modules with
  | nil => simp at hm
  | cons m0 ms ih =>
    by_cases he : m = m0
    · subst he
      rw [List.map_cons, List.find?_cons_of_pos _ (by simp)]
      rfl
    · rw [List.map_cons, List.find?_cons_of_neg _ (by simpa using fun h => he h.symm)]
      exact ih ((List.mem_cons.mp hm).resolve_left he)

/-- Every requested module is bound to its validated plan value when the
batched response parses to an object. -/
theorem plan_lookup_ok (kvs : List (String × Json)) (modules : List String) (m : String)
    (hm : m ∈ modules) :
    pyDictGet? (plan_all_module_information_needs modules (.ok (.obj kvs))) m
      = some (plannedValueFor kvs m) := by
  unfold plan_all_module_information_needs pyDictGet?
  rw [find?_foldl_pyDictInsert (plannedValueFor kvs) modules [] m (Or.inl hm)]
  rfl

theorem objGet_obj_hasKey (kvs : List (String × Json)) (m : String)
    (pkvs : List (String × Json)) (h : Json.objGet kvs m .null = .obj pkvs) :
    Json.objHasKey kvs m = true := by
  unfold Json.objGet at h
  unfold Json.objHasKey
  cases hf : kvs.find? (fun kv => kv.1 = m) with
  | some kv => simp
  | none => rw [hf] at h; cases h

/-- Claim C4: for every non-empty requested-module list, the returned
mapping has an entry for every requested module; a module missing from
the parsed object, or present with a non-dict value, is mapped to the
empty default `{search_queries: [], document_extractions: []}` while a
module present with a dict value gets its validated plan; and on
top-level JSON parse failure (or any exception, including a non-object
parse result) every requested module is mapped to the empty default. -/
theorem claim_C4 (modules : List String) (outcome : LLMJsonOutcome) (hne : modules ≠ []) :
    (∀ m ∈ modules, ∃ v,
      pyDictGet? (plan_all_module_information_needs modules outcome) m = some v)
    ∧ (∀ m ∈ modules, ∀ kvs, outcome = .ok (.obj kvs) →
        ((Json.objGet kvs m .null).isObj = false →
          pyDictGet? (plan_all_module_information_needs modules outcome) m
            = some emptyInfoNeed)
        ∧ (∀ pkvs, Json.objGet kvs m .null = .obj pkvs →
            pyDictGet? (plan_all_module_information_needs modules outcome) m
              = some (validateModulePlan pkvs)))
    ∧ (∀ m ∈ modules, (∀ kvs, outcome ≠ .ok (.obj kvs)) →
        pyDictGet? (plan_all_module_information_needs modules outcome) m
          = some emptyInfoNeed) := by
  refine ⟨?_, ?_, ?_⟩
  · intro m hm
    cases outcome with
    | ok j =>
      cases j with
      | obj kvs => exact ⟨plannedValueFor kvs m, plan_lookup_ok kvs modules m hm⟩
      | null => exact ⟨emptyInfoNeed, pyDictGet?_constMap modules emptyInfoNeed m hm⟩
      | bool b => exact ⟨emptyInfoNeed, pyDictGet?_constMap modules emptyInfoNeed m hm⟩
      | num n => exact ⟨emptyInfoNeed, pyDictGet?_constMap modules emptyInfoNeed m hm⟩
      | str s => exact ⟨emptyInfoNeed, pyDictGet?_constMap modules emptyInfoNeed m hm⟩
      | arr xs => exact ⟨emptyInfoNeed, pyDictGet?_constMap modules emptyInfoNeed m hm⟩
    | unavailable => exact ⟨emptyInfoNeed, pyDictGet?_constMap modules emptyInfoNeed m hm⟩
    | invokeError => exact ⟨emptyInfoNeed, pyDictGet?_constMap modules emptyInfoNeed m hm⟩
    | badJson => exact ⟨emptyInfoNeed, pyDictGet?_constMap modules emptyInfoNeed m hm⟩
  · intro m hm kvs hout
    subst hout
    constructor
    · intro hnotobj
      rw [plan_lookup_ok kvs modules m hm]
      unfold plannedValueFor
      cases hg : Json.objGet kvs m .null with
      | obj pkvs => rw [hg] at hnotobj; simp [Json.isObj] at hnotobj
      | null => rfl
      | bool b => rfl
      | num n => rfl
      | str s => rfl
      | arr xs => rfl
    · intro pkvs hobj
      rw [plan_lookup_ok kvs modules m hm]
      unfold plannedValueFor
      rw [hobj, objGet_obj_hasKey kvs m pkvs hobj]
      rfl
  · intro m hm hno
    cases outcome with
    | ok j =>
      cases j with
      | obj kvs => exact absurd rfl (hno kvs)
      | null => exact pyDictGet?_constMap modules emptyInfoNeed m hm
      | bool b => exact pyDictGet?_constMap modules emptyInfoNeed m hm
      | num n => exact pyDictGet?_constMap modules emptyInfoNeed m hm
      | str s => exact pyDictGet?_constMap modules emptyInfoNeed m hm
      | arr xs => exact pyDictGet?_constMap modules emptyInfoNeed m hm
    | unavailable => exact pyDictGet?_constMap modules emptyInfoNeed m hm
    | invokeError => exact pyDictGet?_constMap modules emptyInfoNeed m hm
    | badJson => exact pyDictGet?_constMap modules emptyInfoNeed m hm

theorem claim_C4_witness :
    pyDictGet? (plan_all_module_information_needs ["A", "B", "C"]
      (.ok (.obj [("A", .obj [("search_queries", .arr [.str "q"]),
                              ("document_extractions", .arr [])]),
                  ("C", .obj [("search_queries", .arr []),
                              ("document_extractions", .arr [])])]))) "B"
      = some emptyInfoNeed :=
  ((claim_C4 ["A", "B", "C"] _ (by simp)).2.1 "B" (by simp) _ rfl).1 (by decide)

theorem isValidExtraction_eq_hasThreeStringFields (item : Json) :
    isValidExtraction item = hasThreeStringFields item := by
  cases item with
  | obj ikvs =>
    simp only [isValidExtraction, hasThreeStringFields]
    rw [Bool.eq_iff_iff]
    simp only [Bool.and_eq_true]
    tauto
  | null => rfl
  | bool b => rfl
  | num n => rfl
  | str s => rfl
  | arr xs => rfl

/-- Claim C9 (counterexample): the claim says a `document_extractions`
entry carrying extra fields beyond the three required ones is dropped.
The validation of planning_services.py lines 194–199 only requires the
three keys to be present with string values and never rejects extra
keys, so an entry with a fourth field `extra` is kept verbatim. -/
theorem claim_C9_counterexample :
    pyDictGet? (plan_all_module_information_needs ["M"]
      (.ok (.obj [("M", .obj [("search_queries", .arr []),
        ("document_extractions", .arr [.obj [("document_type", .str "footnotes"),
          ("period_label", .str "2023 Annual"), ("analysis_context", .str "x"),
          ("extra", .num 1)]])])]))) "M"
      = some ⟨[], [.obj [("document_type", .str "footnotes"),
          ("period_label", .str "2023 Annual"), ("analysis_context", .str "x"),
          ("extra", .num 1)]]⟩ := by
  decide

/-- Claim C9 (amended): a `document_extractions` entry is kept if and
only if it is an object containing (at least) the three required fields
`document_type`, `period_label`, `analysis_context`, each with a string
value; non-objects and entries with a missing or non-string required
field are dropped, entries carrying extra fields are kept verbatim, and
a non-list `document_extractions` value yields an empty list. -/
theorem claim_C9_amended (modules : List String) (m : String)
    (kvs pkvs : List (String × Json)) (hm : m ∈ modules)
    (hkv : Json.objGet kvs m .null = .obj pkvs) :
    (∀ items item, Json.objGet pkvs "document_extractions" (.arr []) = .arr items →
      (item ∈ ((pyDictGet? (plan_all_module_information_needs modules (.ok (.obj kvs))) m).getD
          emptyInfoNeed).document_extractions
        ↔ item ∈ items ∧ hasThreeStringFields item = true))
    ∧ ((Json.objGet pkvs "document_extractions" (.arr [])).isArr = false →
        ((pyDictGet? (plan_all_module_information_needs modules (.ok (.obj kvs))) m).getD
          emptyInfoNeed).document_extractions = []) := by
  have hlook := plan_lookup_ok kvs modules m hm
  have hval : plannedValueFor kvs m = validateModulePlan pkvs := by
    unfold plannedValueFor
    rw [hkv, objGet_obj_hasKey kvs m pkvs hkv]
    rfl
  constructor
  · intro items item hitems
    rw [hlook]
    simp only [Option.getD_some, hval]
    unfold validateModulePlan validateExtractions
    rw [hitems]
    simp only [List.mem_filter, isValidExtraction_eq_hasThreeStringFields]
  · intro hnotarr
    rw [hlook]
    simp only [Option.getD_some, hval]
    unfold validateModulePlan validateExtractions
    cases hj : Json.objGet pkvs "document_extractions" (.arr []) with
    | arr xs => rw [hj] at hnotarr; simp [Json.isArr] at hnotarr
    | null => rfl
    | bool b => rfl
    | num n => rfl
    | str s => rfl
    | obj okvs => rfl

theorem claim_C9_witness :
    .obj [("document_type", .str "footnotes"), ("period_label", .str "2023 Annual"),
          ("analysis_context", .str "x"), ("extra", .num 1)]
      ∈ ((pyDictGet? (plan_all_module_information_needs ["M"]
        (.ok (.obj [("M", .obj [("search_queries", .arr []),
          ("document_extractions", .arr [.obj [("document_type", .str "footnotes"),
            ("period_label", .str "2023 Annual"), ("analysis_context", .str "x"),
            ("extra", .num 1)]])])]))) "M").getD emptyInfoNeed).document_extractions :=
  ((claim_C9_amended ["M"] "M"
      [("M", .obj [("search_queries", .arr []),
        ("document_extractions", .arr [.obj [("document_type", .str "footnotes"),
          ("period_label", .str "2023 Annual"), ("analysis_context", .str "x"),
          ("extra", .num 1)]])])]
      [("search_queries", .arr []),
       ("document_extractions", .arr [.obj [("document_type", .str "footnotes"),
         ("period_label", .str "2023 Annual"), ("analysis_context", .str "x"),
         ("extra", .num 1)]])]
      (by simp) (by decide)).1
    [.obj [("document_type", .str "footnotes"), ("period_label", .str "2023 Annual"),
      ("analysis_context", .str "x"), ("extra", .num 1)]]
    (.obj [("document_type", .str "footnotes"), ("period_label", .str "2023 Annual"),
      ("analysis_context", .str "x"), ("extra", .num 1)])
    (by decide)).mpr ⟨List.mem_singleton.mpr rfl, by decide⟩

theorem suffix_unavail :
    ∃ p, ("LLM不可用，执行所有预定义模块作为后备计划。" : String) = p ++ "后备计划。" :=
  ⟨"LLM不可用，执行所有预定义模块作为", by decide⟩

theorem suffix_badjson :
    ∃ p, ("AI规划返回非JSON格式，已采用所有预定义模块作为后备计划。" : String) = p ++ "后备计划。" :=
  ⟨"AI规划返回非JSON格式，已采用所有预定义模块作为", by decide⟩

theorem suffix_invalid :
    ∃ p, ("AI规划的模块列表无效，已采用所有预定义模块作为后备计划。" : String) = p ++ "后备计划。" :=
  ⟨"AI规划的模块列表无效，已采用所有预定义模块作为", by decide⟩

theorem suffix_format :
    ∃ p, ("AI规划返回格式错误，已采用所有预定义模块作为后备计划。" : String) = p ++ "后备计划。" :=
  ⟨"AI规划返回格式错误，已采用所有预定义模块作为", by decide⟩

theorem suffix_err (e : String) :
    ∃ p, "AI规划器执行出错 (" ++ e ++ ")，已采用所有预定义模块作为后备计划。" = p ++ "后备计划。" := by
  refine ⟨"AI规划器执行出错 (" ++ e ++ ")，已采用所有预定义模块作为", ?_⟩
  rw [show (")，已采用所有预定义模块作为后备计划。" : String)
      = ")，已采用所有预定义模块作为" ++ "后备计划。" from by decide]
  rw [← String.append_assoc]

/-- Claim C6: every module name returned by the LLM that is not in the
known module list is dropped — every name in the returned plan is in the
known list — and whenever the filtered list is empty (including
malformed JSON, non-list or non-string-element plans, exceptions, and an
unavailable client), the returned plan is the full module catalog passed
by the caller, with a rationale noting the fallback (ending in
"后备计划。"). -/
theorem claim_C6 (outcome : RouteLLMOutcome) (all : List String) :
    (∀ m ∈ (get_ai_planned_analysis_route outcome all).planned_modules, m ∈ all)
    ∧ (filteredModulesOf outcome all = [] →
        (get_ai_planned_analysis_route outcome all).planned_modules = all
        ∧ ∃ p, (get_ai_planned_analysis_route outcome all).planning_reasoning
            = p ++ "后备计划。") := by
  cases outcome with
  | unavailable => exact ⟨fun m hm => hm, fun _ => ⟨rfl, suffix_unavail⟩⟩
  | invokeError e => exact ⟨fun m hm => hm, fun _ => ⟨rfl, suffix_err e⟩⟩
  | badJson => exact ⟨fun m hm => hm, fun _ => ⟨rfl, suffix_badjson⟩⟩
  | ok parsed =>
    cases parsed with
    | obj kvs =>
      unfold get_ai_planned_analysis_route filteredModulesOf
      dsimp only
      cases hpm : Json.objGet kvs "planned_modules" .null with
      | arr ms =>
        dsimp only
        by_cases hc : ms ≠ [] ∧ ms.all Json.isStr = true
        · rw [if_pos hc, if_pos hc.2]
          by_cases hv : (ms.map Json.getStr).filter (fun m => decide (m ∈ all)) = []
          · rw [if_pos hv]
            exact ⟨fun m hm => hm, fun _ => ⟨rfl, suffix_invalid⟩⟩
          · rw [if_neg hv]
            cases hr : Json.objGet kvs "planning_reasoning" (.str "AI未能提供规划理由。") with
            | str reasoning =>
              exact ⟨fun m hm => of_decide_eq_true (List.mem_filter.mp hm).2,
                fun hf => absurd hf hv⟩
            | null => exact ⟨fun m hm => hm, fun _ => ⟨rfl, suffix_err _⟩⟩
            | bool b => exact ⟨fun m hm => hm, fun _ => ⟨rfl, suffix_err _⟩⟩
            | num n => exact ⟨fun m hm => hm, fun _ => ⟨rfl, suffix_err _⟩⟩
            | arr xs => exact ⟨fun m hm => hm, fun _ => ⟨rfl, suffix_err _⟩⟩
            | obj okvs => exact ⟨fun m hm => hm, fun _ => ⟨rfl, suffix_err _⟩⟩
        · rw [if_neg hc]
          by_cases hs : ms.all Json.isStr = true
          · rw [if_pos hs]
            exact ⟨fun m hm => hm, fun _ => ⟨rfl, suffix_format⟩⟩
          · rw [if_neg hs]
            exact ⟨fun m hm => hm, fun _ => ⟨rfl, suffix_format⟩⟩
      | null => exact ⟨fun m hm => hm, fun _ => ⟨rfl, suffix_format⟩⟩
      | bool b => exact ⟨fun m hm => hm, fun _ => ⟨rfl, suffix_format⟩⟩
      | num n => exact ⟨fun m hm => hm, fun _ => ⟨rfl, suffix_format⟩⟩
      | str s => exact ⟨fun m hm => hm, fun _ => ⟨rfl, suffix_format⟩⟩
      | obj okvs => exact ⟨fun m hm => hm, fun _ => ⟨rfl, suffix_format⟩⟩
    | null => exact ⟨fun m hm => hm, fun _ => ⟨rfl, suffix_err _⟩⟩
    | bool b => exact ⟨fun m hm => hm, fun _ => ⟨rfl, suffix_err _⟩⟩
    | num n => exact ⟨fun m hm => hm, fun _ => ⟨rfl, suffix_err _⟩⟩
    | str s => exact ⟨fun m hm => hm, fun _ => ⟨rfl, suffix_err _⟩⟩
    | arr xs => exact ⟨fun m hm => hm, fun _ => ⟨rfl, suffix_err _⟩⟩


theorem claim_C6_witness :
    (get_ai_planned_analysis_route
      (.ok (.obj [("planned_modules", .arr [.str "bogus module"])])) ["1.1 波特五力模型"]).planned_modules
      = ["1.1 波特五力模型"] :=
  ((claim_C6 (.ok (.obj [("planned_modules", .arr [.str "bogus module"])]))
    ["1.1 波特五力模型"]).2 (by decide)).1

/-- Claim C10: validation of the parsed `relevant_chunk_ids` list is
all-or-nothing — one non-string element discards the entire selection
(the valid string entries are not kept), and an all-string list is
returned verbatim, unfiltered against the input chunk inventory. -/
theorem claim_C10 (ctxs : List String) (chunks : List Json)
    (kvs : List (String × Json)) (ids : List Json)
    (hsel : Json.objGet kvs "relevant_chunk_ids" (.arr []) = .arr ids) :
    ((∃ x ∈ ids, x.isStr = false) →
      select_relevant_chunks_llm (.ok (.obj kvs)) ctxs chunks = [])
    ∧ ((∀ x ∈ ids, x.isStr = true) → chunks ≠ [] →
        chunks.filter validOverviewFilter ≠ [] →
        select_relevant_chunks_llm (.ok (.obj kvs)) ctxs chunks = ids.map Json.getStr) := by
  unfold select_relevant_chunks_llm
  dsimp only
  constructor
  · intro hbad
    split_ifs with h1 h2
    · rfl
    · rfl
    · rw [hsel]
      dsimp only
      have : ids.all Json.isStr = false := by
        obtain ⟨x, hx, hxf⟩ := hbad
        exact List.all_eq_false.mpr ⟨x, hx, by simp [hxf]⟩
      rw [this]
      rfl
  · intro hgood h1 h2
    rw [if_neg h1, if_neg h2, hsel]
    dsimp only
    rw [show ids.all Json.isStr = true from List.all_eq_true.mpr hgood]
    rfl

theorem claim_C10_witness :
    select_relevant_chunks_llm (.ok (.obj [("relevant_chunk_ids", .arr [.str "zz"])]))
      ["need"] [.obj [("chunk_id", .str "c1"), ("overview_text", .str "o")]] = ["zz"] :=
  (claim_C10 ["need"] [.obj [("chunk_id", .str "c1"), ("overview_text", .str "o")]]
    [("relevant_chunk_ids", .arr [.str "zz"])] [.str "zz"] (by decide)).2
    (by intro x hx; rw [List.mem_singleton.mp hx]; rfl) (by decide) (by decide)

/-! ### Characterization of the extraction grouping (claim C5) -/

theorem mem_foldl_insertKey (l : List (String × String)) (acc : List (String × String))
    (a : String × String) :
    a ∈ l.foldl (fun acc2 x => if x ∈ acc2 then acc2 else acc2 ++ [x]) acc
      ↔ a ∈ acc ∨ a ∈ l := by
  induction l generalizing acc with
  | nil => simp
  | cons b rest ih =>
    simp only [List.foldl_cons]
    rw [ih]
    by_cases hb : b ∈ acc
    · rw [if_pos hb]
      simp only [List.mem_cons]
      constructor
      · rintro (h | h)
        · exact Or.inl h
        · exact Or.inr (Or.inr h)
      · rintro (h | rfl | h)
        · exact Or.inl h
        · exact Or.inl hb
        · exact Or.inr h
    · rw [if_neg hb]
      simp only [List.mem_append, List.mem_singleton, List.mem_cons]
      tauto

theorem mem_firstOccurrences (l : List (String × String)) (a : String × String) :
    a ∈ firstOccurrences l ↔ a ∈ l := by
  unfold firstOccurrences
  rw [mem_foldl_insertKey]
  simp

theorem firstOccurrences_append_single (l : List (String × String)) (a : String × String) :
    firstOccurrences (l ++ [a])
      = if a ∈ firstOccurrences l then firstOccurrences l
        else firstOccurrences l ++ [a] := by
  unfold firstOccurrences
  rw [List.foldl_append]
  rfl

theorem extractionKeys_append_single (de : List ExtractionSpec) (e : ExtractionSpec) :
    extractionKeys (de ++ [e])
      = if (e.document_type, e.period_label) ∈ extractionKeys de then extractionKeys de
        else extractionKeys de ++ [(e.document_type, e.period_label)] := by
  unfold extractionKeys
  rw [List.map_append]
  exact firstOccurrences_append_single _ _

theorem contextsOfKey_append_single (de : List ExtractionSpec) (e : ExtractionSpec)
    (k : String × String) :
    contextsOfKey (de ++ [e]) k
      = contextsOfKey de k ++
        (if (e.document_type, e.period_label) = k then [e.analysis_context] else []) := by
  unfold contextsOfKey
  rw [List.filter_append, List.map_append]
  congr 1
  by_cases he : (e.document_type, e.period_label) = k
  · simp [he]
  · simp [he]

theorem contextsOfKey_eq_nil_of_not_mem (de : List ExtractionSpec) (k : String × String)
    (hk : k ∉ extractionKeys de) : contextsOfKey de k = [] := by
  unfold contextsOfKey
  rw [List.filter_eq_nil_iff.mpr, List.map_nil]
  intro e he
  simp only [decide_eq_true_eq]
  intro hek
  exact hk ((mem_firstOccurrences _ _).mpr (List.mem_map.mpr ⟨e, he, hek⟩))

theorem groupInsert_groupedView (de : List ExtractionSpec) (e : ExtractionSpec) :
    groupInsert (groupedView de) (e.document_type, e.period_label) e.analysis_context
      = groupedView (de ++ [e]) := by
  by_cases hk : (e.document_type, e.period_label) ∈ extractionKeys de
  · have hsome : ((groupedView de).find?
        (fun g => g.1 = (e.document_type, e.period_label))).isSome := by
      rw [List.find?_isSome]
      exact ⟨((e.document_type, e.period_label),
        contextsOfKey de (e.document_type, e.period_label)),
        List.mem_map.mpr ⟨(e.document_type, e.period_label), hk, rfl⟩, by simp⟩
    unfold groupInsert
    rw [if_pos hsome]
    unfold groupedView
    rw [extractionKeys_append_single, if_pos hk, List.map_map]
    apply List.map_congr_left
    intro a ha
    by_cases hak : a = (e.document_type, e.period_label)
    · subst hak
      have hctx : contextsOfKey (de ++ [e]) (e.document_type, e.period_label)
          = contextsOfKey de (e.document_type, e.period_label) ++ [e.analysis_context] := by
        rw [contextsOfKey_append_single, if_pos rfl]
      simp [hctx]
    · simp only [Function.comp_apply, decide_eq_true_eq]
      rw [if_neg hak, contextsOfKey_append_single,
        if_neg (fun h => hak h.symm), List.append_nil]
  · have hnone : (groupedView de).find?
        (fun g => g.1 = (e.document_type, e.period_label)) = none := by
      rw [List.find?_eq_none]
      intro g hg
      obtain ⟨a, ha, rfl⟩ := List.mem_map.mp hg
      simp only [decide_eq_true_eq]
      intro h
      exact hk ((show a = (e.document_type, e.period_label) from h) ▸ ha)
    unfold groupInsert
    rw [hnone]
    rw [if_neg (by simp)]
    unfold groupedView
    rw [extractionKeys_append_single, if_neg hk, List.map_append]
    congr 1
    · apply List.map_congr_left
      intro a ha
      rw [contextsOfKey_append_single,
        if_neg (by intro h; exact hk (h ▸ ha)), List.append_nil]
    · rw [List.map_singleton, contextsOfKey_append_single, if_pos rfl,
        contextsOfKey_eq_nil_of_not_mem de _ hk, List.nil_append]

theorem groupExtractions_eq_groupedView (de : List ExtractionSpec) :
    groupExtractions de = groupedView de := by
  suffices h : ∀ (rest pre : List ExtractionSpec),
      rest.foldl
        (fun gs e2 => groupInsert gs (e2.document_type, e2.period_label) e2.analysis_context)
        (groupedView pre)
      = groupedView (pre ++ rest) by
    have h0 := h de []
    simpa [groupExtractions, groupedView, extractionKeys, firstOccurrences,
      contextsOfKey] using h0
  intro rest
  induction rest with
  | nil => intro pre; simp
  | cons e2 rest2 ih =>
    intro pre
    simp only [List.foldl_cons]
    rw [groupInsert_groupedView pre e2, ih (pre ++ [e2])]
    congr 1
    simp

theorem prefetch_foldl_calls (mod : String) (reports : List ReportEntry)
    (sel : List String → List ProcessedChunk → List String)
    (comp : String → String → String)
    (groups : List ((String × String) × List String)) (init : DocPrefetchResult) :
    (groups.foldl (prefetchStep mod reports sel comp) init).selectorCalls
      = init.selectorCalls ++
        (groups.filter fun g => chunksForDoc reports g.1.1 g.1.2 ≠ []).map
          (fun g => (g.2, chunksForDoc reports g.1.1 g.1.2))
    ∧ (groups.foldl (prefetchStep mod reports sel comp) init).compressorCalls
      = init.compressorCalls ++
        (groups.filter fun g => chunksForDoc reports g.1.1 g.1.2 ≠ []).filterMap
          (fun g =>
            if sel g.2 (chunksForDoc reports g.1.1 g.1.2) ≠ [] ∧
               pyStripStr (concatSelectedTexts (chunksForDoc reports g.1.1 g.1.2)
                 (sel g.2 (chunksForDoc reports g.1.1 g.1.2))) ≠ ""
            then some (concatSelectedTexts (chunksForDoc reports g.1.1 g.1.2)
                (sel g.2 (chunksForDoc reports g.1.1 g.1.2)),
              combinedCompressionContext mod g.2)
            else none) := by
  induction groups generalizing init with
  | nil => simp
  | cons g rest ih =>
    simp only [List.foldl_cons]
    by_cases hc : chunksForDoc reports g.1.1 g.1.2 = []
    · have hstep : prefetchStep mod reports sel comp init g
          = { init with contents := init.contents ++
              ["未能提取文档 \x27" ++ g.1.1 ++ "\x27 (" ++ g.1.2 ++
               ") 的内容：未找到预处理分块数据。"] } := by
        unfold prefetchStep
        rw [if_pos hc]
      rw [hstep]
      obtain ⟨h1, h2⟩ := ih _
      constructor
      · rw [h1, List.filter_cons_of_neg (by simpa using hc)]
      · rw [h2, List.filter_cons_of_neg (by simpa using hc)]
    · by_cases hids : sel g.2 (chunksForDoc reports g.1.1 g.1.2) ≠ []
      · by_cases hstrip : pyStripStr (concatSelectedTexts (chunksForDoc reports g.1.1 g.1.2)
            (sel g.2 (chunksForDoc reports g.1.1 g.1.2))) ≠ ""
        · have hstep : (prefetchStep mod reports sel comp init g).selectorCalls
              = init.selectorCalls ++ [(g.2, chunksForDoc reports g.1.1 g.1.2)] ∧
            (prefetchStep mod reports sel comp init g).compressorCalls
              = init.compressorCalls ++
                [(concatSelectedTexts (chunksForDoc reports g.1.1 g.1.2)
                    (sel g.2 (chunksForDoc reports g.1.1 g.1.2)),
                  combinedCompressionContext mod g.2)] := by
            unfold prefetchStep
            rw [if_neg hc, if_pos hids, if_pos hstrip]
            exact ⟨rfl, rfl⟩
          obtain ⟨h1, h2⟩ := ih (prefetchStep mod reports sel comp init g)
          constructor
          · rw [h1, hstep.1, List.filter_cons_of_pos (by simpa using hc), List.map_cons]
            simp only [List.append_assoc, List.singleton_append]
          · rw [h2, hstep.2, List.filter_cons_of_pos (by simpa using hc),
              List.filterMap_cons]
            rw [if_pos (And.intro hids hstrip)]
            simp only [List.append_assoc, List.singleton_append]
        · have hstep : (prefetchStep mod reports sel comp init g).selectorCalls
              = init.selectorCalls ++ [(g.2, chunksForDoc reports g.1.1 g.1.2)] ∧
            (prefetchStep mod reports sel comp init g).compressorCalls
              = init.compressorCalls := by
            unfold prefetchStep
            rw [if_neg hc, if_pos hids, if_neg hstrip]
            exact ⟨rfl, rfl⟩
          obtain ⟨h1, h2⟩ := ih (prefetchStep mod reports sel comp init g)
          constructor
          · rw [h1, hstep.1, List.filter_cons_of_pos (by simpa using hc), List.map_cons]
            simp only [List.append_assoc, List.singleton_append]
          · rw [h2, hstep.2, List.filter_cons_of_pos (by simpa using hc),
              List.filterMap_cons]
            rw [if_neg (fun hand => hstrip hand.2)]
      · have hstep : (prefetchStep mod reports sel comp init g).selectorCalls
            = init.selectorCalls ++ [(g.2, chunksForDoc reports g.1.1 g.1.2)] ∧
          (prefetchStep mod reports sel comp init g).compressorCalls
            = init.compressorCalls := by
          unfold prefetchStep
          rw [if_neg hc, if_neg hids]
          exact ⟨rfl, rfl⟩
        obtain ⟨h1, h2⟩ := ih (prefetchStep mod reports sel comp init g)
        constructor
        · rw [h1, hstep.1, List.filter_cons_of_pos (by simpa using hc), List.map_cons]
          simp only [List.append_assoc, List.singleton_append]
        · rw [h2, hstep.2, List.filter_cons_of_pos (by simpa using hc),
            List.filterMap_cons]
          rw [if_neg (fun hand => hids hand.1)]

/-- Claim C5 (counterexample): the claim says every group with two or
more extraction requests with different analysis contexts causes exactly
one RelevanceSelector call.  But when the group's
`(document_type, period_label)` resolves to no preprocessed chunks, the
loop short-circuits (engine lines 79–82) and issues zero selector
calls. -/
theorem claim_C5_counterexample :
    (run_llm_module_analysis_doc_prefetch "M" []
      [⟨"footnotes", "2023 Annual", "ctxA"⟩, ⟨"footnotes", "2023 Annual", "ctxB"⟩]
      (fun _ _ => []) (fun _ _ => "")).selectorCalls = []
    ∧ extractionKeys
        [⟨"footnotes", "2023 Annual", "ctxA"⟩, ⟨"footnotes", "2023 Annual", "ctxB"⟩]
      = [("footnotes", "2023 Annual")]
    ∧ contextsOfKey
        [⟨"footnotes", "2023 Annual", "ctxA"⟩, ⟨"footnotes", "2023 Annual", "ctxB"⟩]
        ("footnotes", "2023 Annual")
      = ["ctxA", "ctxB"] := by
  refine ⟨rfl, by decide, by decide⟩

/-- Claim C5 (amended): during one module's execution the planned
`document_extractions` are grouped by `(document_type, period_label)`;
the selector calls are exactly one per distinct key whose document
resolves to a non-empty preprocessed chunk list (zero for keys with no
chunks), each receiving all of the group's analysis contexts in plan
order; and at most one compressor call is issued per group, always with
the group's contexts joined into the combined compression context —
never one selector or compressor pass per context. -/
theorem claim_C5_amended (mod : String) (reports : List ReportEntry)
    (de : List ExtractionSpec)
    (sel : List String → List ProcessedChunk → List String)
    (comp : String → String → String) :
    (run_llm_module_analysis_doc_prefetch mod reports de sel comp).selectorCalls
      = ((extractionKeys de).filter fun k => chunksForDoc reports k.1 k.2 ≠ []).map
          (fun k => (contextsOfKey de k, chunksForDoc reports k.1 k.2))
    ∧ (run_llm_module_analysis_doc_prefetch mod reports de sel comp).compressorCalls.length
      ≤ ((extractionKeys de).filter fun k => chunksForDoc reports k.1 k.2 ≠ []).length
    ∧ ∀ cc ∈ (run_llm_module_analysis_doc_prefetch mod reports de sel comp).compressorCalls,
        ∃ k ∈ extractionKeys de,
          cc.2 = combinedCompressionContext mod (contextsOfKey de k) := by
  unfold run_llm_module_analysis_doc_prefetch
  rw [groupExtractions_eq_groupedView]
  obtain ⟨h1, h2⟩ := prefetch_foldl_calls mod reports sel comp (groupedView de) ⟨[], [], []⟩
  have hfilter : (groupedView de).filter (fun g => chunksForDoc reports g.1.1 g.1.2 ≠ [])
      = ((extractionKeys de).filter fun k => chunksForDoc reports k.1 k.2 ≠ []).map
          (fun k => (k, contextsOfKey de k)) := by
    unfold groupedView
    rw [List.filter_map]
    rfl
  refine ⟨?_, ?_, ?_⟩
  · rw [h1, hfilter, List.map_map]
    simp only [List.nil_append]
    rfl
  · rw [h2, hfilter]
    simp only [List.nil_append]
    calc (List.filterMap _ (((extractionKeys de).filter
          fun k => chunksForDoc reports k.1 k.2 ≠ []).map fun k => (k, contextsOfKey de k))).length
        ≤ (((extractionKeys de).filter fun k => chunksForDoc reports k.1 k.2 ≠ []).map
            (fun k => (k, contextsOfKey de k))).length := List.length_filterMap_le _ _
      _ = ((extractionKeys de).filter fun k => chunksForDoc reports k.1 k.2 ≠ []).length :=
          List.length_map _ _
  · intro cc hcc
    rw [h2, hfilter] at hcc
    simp only [List.nil_append] at hcc
    obtain ⟨g, hg, hfg⟩ := List.mem_filterMap.mp hcc
    obtain ⟨k, hk, rfl⟩ := List.mem_map.mp hg
    refine ⟨k, (List.mem_filter.mp hk).1, ?_⟩
    by_cases hcond : sel (k, contextsOfKey de k).2
        (chunksForDoc reports (k, contextsOfKey de k).1.1 (k, contextsOfKey de k).1.2) ≠ [] ∧
        pyStripStr (concatSelectedTexts
          (chunksForDoc reports (k, contextsOfKey de k).1.1 (k, contextsOfKey de k).1.2)
          (sel (k, contextsOfKey de k).2
            (chunksForDoc reports (k, contextsOfKey de k).1.1 (k, contextsOfKey de k).1.2))) ≠ ""
    · rw [if_pos hcond] at hfg
      cases hfg
      rfl
    · rw [if_neg hcond] at hfg
      cases hfg

theorem claim_C5_witness :
    ∃ k ∈ extractionKeys
        [⟨"footnotes", "2023 Annual", "ctxA"⟩, ⟨"footnotes", "2023 Annual", "ctxB"⟩],
      ("TEXT\n\n", combinedCompressionContext "M" ["ctxA", "ctxB"]).2
        = combinedCompressionContext "M"
            (contextsOfKey
              [⟨"footnotes", "2023 Annual", "ctxA"⟩, ⟨"footnotes", "2023 Annual", "ctxB"⟩] k) :=
  (claim_C5_amended "M" [⟨"2023 Annual", [⟨"c1", "TEXT", "ov"⟩], []⟩]
    [⟨"footnotes", "2023 Annual", "ctxA"⟩, ⟨"footnotes", "2023 Annual", "ctxB"⟩]
    (fun _ _ => ["c1"]) (fun _ _ => "Z")).2.2
    ("TEXT\n\n", combinedCompressionContext "M" ["ctxA", "ctxB"]) (by decide)

/-! ### Memoization of abbreviated summaries (claim C7) -/

theorem find?_assocUpdate (outs : List (String × ModuleOutput)) (k : String)
    (f : ModuleOutput → ModuleOutput) (m : String) :
    (assocUpdate outs k f).find? (fun kv => kv.1 = m)
      = (outs.find? (fun kv => kv.1 = m)).map
          (fun kv => if kv.1 = k then (kv.1, f kv.2) else kv) := by
  induction outs with
  | nil => rfl
  | cons kv0 rest ih =>
    by_cases hm : kv0.1 = m
    · unfold assocUpdate
      simp only [List.map_cons]
      rw [List.find?_cons_of_pos _ ?hpos, List.find?_cons_of_pos _ (by simpa using hm)]
      · rfl
      case hpos =>
        by_cases hk : kv0.1 = k
        · rw [if_pos hk]
          simpa using hm
        · rw [if_neg hk]
          simpa using hm
    · unfold assocUpdate
      simp only [List.map_cons]
      rw [List.find?_cons_of_neg _ ?hneg, List.find?_cons_of_neg _ (by simpa using hm)]
      · exact ih
      case hneg =>
        by_cases hk : kv0.1 = k
        · rw [if_pos hk]
          simpa using hm
        · rw [if_neg hk]
          simpa using hm

theorem pyDictGet?_assocUpdate_self (outs : List (String × ModuleOutput)) (k : String)
    (f : ModuleOutput → ModuleOutput) (o : ModuleOutput)
    (h : pyDictGet? outs k = some o) :
    pyDictGet? (assocUpdate outs k f) k = some (f o) := by
  unfold pyDictGet? at h ⊢
  rw [find?_assocUpdate]
  cases hf : outs.find? (fun kv => kv.1 = k) with
  | none => rw [hf] at h; cases h
  | some kv =>
    rw [hf] at h
    have hkey : kv.1 = k := by simpa using List.find?_some hf
    have hval : kv.2 = o := by simpa using h
    rw [Option.map_some', Option.map_some', if_pos hkey, hval]

theorem pyDictGet?_assocUpdate_other (outs : List (String × ModuleOutput)) (k : String)
    (f : ModuleOutput → ModuleOutput) (m : String) (hne : m ≠ k) :
    pyDictGet? (assocUpdate outs k f) m = pyDictGet? outs m := by
  unfold pyDictGet?
  rw [find?_assocUpdate]
  cases hf : outs.find? (fun kv => kv.1 = m) with
  | none => rfl
  | some kv =>
    have hkey : kv.1 = m := by simpa using List.find?_some hf
    rw [Option.map_some', if_neg (fun hcontra => hne (hkey ▸ hcontra))]

/-- A step on a different dependency touches neither the `dep` entry nor
the `dep` call count. -/
theorem processDep_other (llm : Option (String → SummarizeResult)) (cur : String)
    (st : PriorSummaryState) (d dep : String) (hne : d ≠ dep) :
    pyDictGet? (processDep llm cur st d).outputs dep = pyDictGet? st.outputs dep
    ∧ summarizeCallsFor (processDep llm cur st d).calls dep
      = summarizeCallsFor st.calls dep := by
  unfold processDep
  cases hd : pyDictGet? st.outputs d with
  | none => exact ⟨rfl, rfl⟩
  | some o =>
    dsimp only
    split_ifs with h1 h2 h3
    · exact ⟨rfl, rfl⟩
    · cases llm with
      | none => exact ⟨rfl, rfl⟩
      | some oracle =>
        dsimp only
        cases horacle : oracle (summarizationPrompt cur (pyTake 15000 o.text_summary)) with
        | ok t =>
          dsimp only
          refine ⟨pyDictGet?_assocUpdate_other st.outputs d _ dep hne.symm, ?_⟩
          unfold summarizeCallsFor
          rw [List.filter_append]
          simp [hne]
        | raise e =>
          dsimp only
          refine ⟨rfl, ?_⟩
          unfold summarizeCallsFor
          rw [List.filter_append]
          simp [hne]
    · exact ⟨rfl, rfl⟩
    · exact ⟨rfl, rfl⟩

/-- A step on `dep` when a non-empty abbreviated summary is cached:
no LLM call, no state change at `dep`. -/
theorem processDep_cached (llm : Option (String → SummarizeResult)) (cur : String)
    (st : PriorSummaryState) (dep : String) (o : ModuleOutput) (t : String)
    (ho : pyDictGet? st.outputs dep = some o) (hst : o.status = "Completed")
    (habbr : o.abbreviated_summary = some t) (ht : t ≠ "") :
    pyDictGet? (processDep llm cur st dep).outputs dep = pyDictGet? st.outputs dep
    ∧ summarizeCallsFor (processDep llm cur st dep).calls dep
      = summarizeCallsFor st.calls dep := by
  unfold processDep
  rw [ho]
  dsimp only
  rw [if_pos hst, habbr]
  dsimp only
  rw [if_pos (by simpa using ht)]
  exact ⟨ho, rfl⟩

/-- A step on `dep` when no summary is cached, the module is completed
with a non-empty text summary, and the oracle answers `t`: exactly one
call is issued and `t` is stored. -/
theorem processDep_generate (oracle : String → SummarizeResult) (cur : String)
    (st : PriorSummaryState) (dep : String) (o : ModuleOutput) (t : String)
    (ho : pyDictGet? st.outputs dep = some o) (hst : o.status = "Completed")
    (habbr : o.abbreviated_summary = none) (hts : o.text_summary ≠ "")
    (horacle : oracle (summarizationPrompt cur (pyTake 15000 o.text_summary)) = .ok t) :
    pyDictGet? (processDep (some oracle) cur st dep).outputs dep
      = some { o with abbreviated_summary := some t }
    ∧ summarizeCallsFor (processDep (some oracle) cur st dep).calls dep
      = summarizeCallsFor st.calls dep + 1 := by
  unfold processDep
  rw [ho]
  dsimp only
  rw [if_pos hst, habbr]
  dsimp only
  rw [if_neg (by simp), if_pos hts, horacle]
  dsimp only
  refine ⟨pyDictGet?_assocUpdate_self st.outputs dep _ o ho, ?_⟩
  unfold summarizeCallsFor
  rw [List.filter_append]
  simp

/-- Folding over any dependency list keeps a cached non-empty summary
untouched and issues no further calls for that module. -/
theorem foldl_processDep_cached (oracle : String → SummarizeResult) (cur : String)
    (deps : List String) (st : PriorSummaryState) (dep : String) (o : ModuleOutput)
    (t : String) (ho : pyDictGet? st.outputs dep = some o) (hst : o.status = "Completed")
    (habbr : o.abbreviated_summary = some t) (ht : t ≠ "") :
    pyDictGet? (deps.foldl (processDep (some oracle) cur) st).outputs dep = some o
    ∧ summarizeCallsFor (deps.foldl (processDep (some oracle) cur) st).calls dep
      = summarizeCallsFor st.calls dep := by
  induction deps generalizing st with
  | nil => exact ⟨ho, rfl⟩
  | cons d rest ih =>
    simp only [List.foldl_cons]
    by_cases hd : d = dep
    · subst hd
      obtain ⟨h1, h2⟩ := processDep_cached (some oracle) cur st d o t ho hst habbr ht
      obtain ⟨h3, h4⟩ := ih (processDep (some oracle) cur st d) (h1.trans ho)
      exact ⟨h3, h4.trans h2⟩
    · obtain ⟨h1, h2⟩ := processDep_other (some oracle) cur st d dep hd
      obtain ⟨h3, h4⟩ := ih (processDep (some oracle) cur st d) (h1.trans ho)
      exact ⟨h3, h4.trans h2⟩

/-- Folding over a dependency list containing `dep`, starting from an
uncached completed entry: exactly one summarization call for `dep`, and
the oracle's non-empty answer ends up cached. -/
theorem foldl_processDep_generate (oracle : String → SummarizeResult) (cur : String)
    (deps : List String) (st : PriorSummaryState) (dep : String) (o : ModuleOutput)
    (t : String) (hdep : dep ∈ deps)
    (ho : pyDictGet? st.outputs dep = some o) (hst : o.status = "Completed")
    (habbr : o.abbreviated_summary = none) (hts : o.text_summary ≠ "")
    (horacle : oracle (summarizationPrompt cur (pyTake 15000 o.text_summary)) = .ok t)
    (ht : t ≠ "") :
    pyDictGet? (deps.foldl (processDep (some oracle) cur) st).outputs dep
      = some { o with abbreviated_summary := some t }
    ∧ summarizeCallsFor (deps.foldl (processDep (some oracle) cur) st).calls dep
      = summarizeCallsFor st.calls dep + 1 := by
  induction deps generalizing st with
  | nil => simp at hdep
  | cons d rest ih =>
    simp only [List.foldl_cons]
    by_cases hd : d = dep
    · subst hd
      obtain ⟨h1, h2⟩ := processDep_generate oracle cur st d o t ho hst habbr hts horacle
      obtain ⟨h3, h4⟩ :=
        foldl_processDep_cached oracle cur rest (processDep (some oracle) cur st d) d
          { o with abbreviated_summary := some t } t h1 hst rfl ht
      exact ⟨h3, h4.trans h2⟩
    · obtain ⟨h1, h2⟩ := processDep_other (some oracle) cur st d dep hd
      have hdep2 : dep ∈ rest := (List.mem_cons.mp hdep).resolve_left (fun h => hd h.symm)
      obtain ⟨h3, h4⟩ := ih (processDep (some oracle) cur st d) hdep2 (h1.trans ho)
      exact ⟨h3, by rw [h4, h2]⟩

/-- Claim C7 (counterexample): the claim says two accesses to a
completed module's abbreviated summary cause exactly one summarization
call.  But the cache check is a truthiness test: when the summarization
LLM answers an empty string, the empty summary is stored, the second
access sees it as absent and summarizes again — two calls. -/
theorem claim_C7_counterexample :
    summarizeCallsFor
      (get_prior_analyses_summary (some fun _ => .ok "") "1.2 SWOT 分析"
        [("1.1 波特五力模型", ⟨"Completed", "x", none⟩)]).2.2 "1.1 波特五力模型" = 1
    ∧ summarizeCallsFor
      (get_prior_analyses_summary (some fun _ => .ok "") "1.2 SWOT 分析"
        ((get_prior_analyses_summary (some fun _ => .ok "") "1.2 SWOT 分析"
          [("1.1 波特五力模型", ⟨"Completed", "x", none⟩)]).2.1)).2.2 "1.1 波特五力模型" = 1 := by
  refine ⟨by decide, by decide⟩

/-- Claim C7 (amended): the abbreviated summary is populated lazily on
first cross-module reference; if that first summarization call returns a
non-empty summary, a second reference within the run issues zero further
summarization calls for that module and leaves the cached value
unchanged — so each completed module is summarized at most once per run
when the summarizer succeeds with non-empty output. -/
theorem claim_C7_amended (cur1 cur2 dep : String)
    (outputs : List (String × ModuleOutput)) (o : ModuleOutput)
    (oracle : String → SummarizeResult) (t : String)
    (hdep1 : dep ∈ moduleDependenciesOf cur1)
    (hdep2 : dep ∈ moduleDependenciesOf cur2)
    (ho : pyDictGet? outputs dep = some o)
    (hst : o.status = "Completed")
    (habbr : o.abbreviated_summary = none)
    (hts : o.text_summary ≠ "")
    (horacle : oracle (summarizationPrompt cur1 (pyTake 15000 o.text_summary)) = .ok t)
    (ht : t ≠ "") :
    summarizeCallsFor (get_prior_analyses_summary (some oracle) cur1 outputs).2.2 dep = 1
    ∧ pyDictGet? (get_prior_analyses_summary (some oracle) cur1 outputs).2.1 dep
        = some { o with abbreviated_summary := some t }
    ∧ summarizeCallsFor
        (get_prior_analyses_summary (some oracle) cur2
          (get_prior_analyses_summary (some oracle) cur1 outputs).2.1).2.2 dep = 0
    ∧ pyDictGet?
        (get_prior_analyses_summary (some oracle) cur2
          (get_prior_analyses_summary (some oracle) cur1 outputs).2.1).2.1 dep
        = some { o with abbreviated_summary := some t } := by
  have hne1 : moduleDependenciesOf cur1 ≠ [] := by
    intro h
    rw [h] at hdep1
    simp at hdep1
  have hne2 : moduleDependenciesOf cur2 ≠ [] := by
    intro h
    rw [h] at hdep2
    simp at hdep2
  unfold get_prior_analyses_summary
  rw [if_neg hne1]
  dsimp only
  obtain ⟨h1, h2⟩ := foldl_processDep_generate oracle cur1 (moduleDependenciesOf cur1)
    ⟨outputs, [], []⟩ dep o t hdep1 ho hst habbr hts horacle ht
  rw [if_neg hne2]
  dsimp only
  obtain ⟨h3, h4⟩ :=
    foldl_processDep_cached oracle cur2 (moduleDependenciesOf cur2)
      ⟨((moduleDependenciesOf cur1).foldl (processDep (some oracle) cur1)
        ⟨outputs, [], []⟩).outputs, [], []⟩ dep
      { o with abbreviated_summary := some t } t h1 hst rfl ht
  refine ⟨?_, h1, ?_, h3⟩
  · rw [h2]
    rfl
  · rw [h4]
    rfl

theorem claim_C7_witness :
    summarizeCallsFor
      (get_prior_analyses_summary (some fun _ => .ok "SUMMARY") "1.2 SWOT 分析"
        [("1.1 波特五力模型", ⟨"Completed", "x", none⟩)]).2.2 "1.1 波特五力模型" = 1 :=
  (claim_C7_amended "1.2 SWOT 分析" "1.5 财务报表结构与趋势分析" "1.1 波特五力模型"
    [("1.1 波特五力模型", ⟨"Completed", "x", none⟩)] ⟨"Completed", "x", none⟩
    (fun _ => .ok "SUMMARY") "SUMMARY"
    (by decide) (by decide) (by decide) rfl rfl (by decide) rfl (by decide)).1

/-! ### Tokenization lemmas (claims C2, C3)

`tokens` is Python's `str.split()`: the maximal runs of non-whitespace
characters, in order. -/

theorem tokens_nil : tokens [] = [] := rfl

theorem tokens_cons_space (c : Char) (l : List Char) (hc : pySpaceChar c = true) :
    tokens (c :: l) = tokens l := by
  cases l with
  | nil => simp [tokens, hc]
  | cons d l2 => simp only [tokens, if_pos hc]

theorem tokens_cons_cons_space (c d : Char) (l : List Char)
    (hc : pySpaceChar c = false) (hd : pySpaceChar d = true) :
    tokens (c :: d :: l) = [c] :: tokens (d :: l) := by
  simp [tokens, hc, hd]

theorem tokens_cons_cons_nonspace (c d : Char) (l : List Char)
    (hc : pySpaceChar c = false) (hd : pySpaceChar d = false) :
    tokens (c :: d :: l) = consHead c (tokens (d :: l)) := by
  simp [tokens, hc, hd]

theorem tokens_cons_nonspace_ne_nil (b : Char) (l : List Char)
    (hb : pySpaceChar b = false) : tokens (b :: l) ≠ [] := by
  cases l with
  | nil => simp [tokens, hb]
  | cons d l2 =>
    by_cases hd : pySpaceChar d = true
    · rw [tokens_cons_cons_space b d l2 hb hd]
      simp
    · rw [tokens_cons_cons_nonspace b d l2 hb (by simpa using hd)]
      cases htk : tokens (d :: l2) <;> simp [consHead]

theorem tokens_eq_nil_iff (l : List Char) :
    tokens l = [] ↔ ∀ c ∈ l, pySpaceChar c = true := by
  induction l with
  | nil => simp [tokens]
  | cons c cs ih =>
    by_cases hc : pySpaceChar c = true
    · rw [tokens_cons_space c cs hc, ih]
      simp [hc]
    · constructor
      · intro h
        exact absurd h (tokens_cons_nonspace_ne_nil c cs (by simpa using hc))
      · intro h
        exact absurd (h c (List.mem_cons_self c cs)) hc

theorem pyStripL_eq_nil_iff (l : List Char) :
    pyStripL l = [] ↔ ∀ c ∈ l, pySpaceChar c = true := by
  unfold pyStripL
  rw [List.reverse_eq_nil_iff, List.dropWhile_eq_nil_iff]
  constructor
  · intro h c hc
    by_cases hmem : c ∈ l.dropWhile pySpaceChar
    · exact h c (by simpa using List.mem_reverse.mpr hmem)
    · have hsplit := List.takeWhile_append_dropWhile (p := pySpaceChar) (l := l)
      rw [← hsplit] at hc
      rcases List.mem_append.mp hc with h1 | h1
      · exact List.mem_takeWhile_imp h1
      · exact absurd h1 hmem
  · intro h c hc
    rw [List.mem_reverse] at hc
    exact h c (List.dropWhile_sublist pySpaceChar |>.mem hc)

theorem tokens_dropWhile_space (l : List Char) :
    tokens (l.dropWhile pySpaceChar) = tokens l := by
  induction l with
  | nil => rfl
  | cons c cs ih =>
    by_cases hc : pySpaceChar c = true
    · rw [List.dropWhile_cons_of_pos hc, ih, tokens_cons_space c cs hc]
    · rw [List.dropWhile_cons_of_neg (by simpa using hc)]

theorem consHead_append (c : Char) (x y : List (List Char)) (hx : x ≠ []) :
    consHead c (x ++ y) = consHead c x ++ y := by
  cases x with
  | nil => exact absurd rfl hx
  | cons t ts => rfl

theorem tokens_append_of_spaceOrNil (s t : List Char) (ht : spaceOrNil t) :
    tokens (s ++ t) = tokens s ++ tokens t := by
  induction s with
  | nil => simp [tokens]
  | cons a s2 ih =>
    cases s2 with
    | nil =>
      cases t with
      | nil => simp [tokens]
      | cons d t2 =>
        have hd : pySpaceChar d = true := ht
        by_cases ha : pySpaceChar a = true
        · rw [List.singleton_append, tokens_cons_space a (d :: t2) ha]
          simp [tokens, ha]
        · rw [List.singleton_append, tokens_cons_cons_space a d t2 (by simpa using ha) hd]
          simp [tokens, ha]
    | cons b s3 =>
      have hmid : tokens (b :: (s3 ++ t)) = tokens (b :: s3) ++ tokens t := by
        simpa using ih
      by_cases ha : pySpaceChar a = true
      · rw [List.cons_append, List.cons_append,
          tokens_cons_space a (b :: (s3 ++ t)) ha, tokens_cons_space a (b :: s3) ha]
        exact hmid
      · by_cases hb : pySpaceChar b = true
        · rw [List.cons_append, List.cons_append,
            tokens_cons_cons_space a b (s3 ++ t) (by simpa using ha) hb,
            tokens_cons_cons_space a b s3 (by simpa using ha) hb, hmid]
          simp
        · rw [List.cons_append, List.cons_append,
            tokens_cons_cons_nonspace a b (s3 ++ t) (by simpa using ha) (by simpa using hb),
            tokens_cons_cons_nonspace a b s3 (by simpa using ha) (by simpa using hb), hmid,
            consHead_append a (tokens (b :: s3)) (tokens t)
              (tokens_cons_nonspace_ne_nil b s3 (by simpa using hb))]

theorem spaceOrNil_of_all_space (t : List Char) (h : ∀ c ∈ t, pySpaceChar c = true) :
    spaceOrNil t := by
  cases t with
  | nil => trivial
  | cons c cs => exact h c (List.mem_cons_self c cs)

theorem tokens_wf (l : List Char) :
    ∀ tk ∈ tokens l, tk ≠ [] ∧ ∀ c ∈ tk, pySpaceChar c = false := by
  induction l with
  | nil => simp [tokens]
  | cons a s2 ih =>
    cases s2 with
    | nil =>
      by_cases ha : pySpaceChar a = true
      · simp [tokens, ha]
      · intro tk htk
        simp only [tokens, if_neg ha] at htk
        rw [List.mem_singleton.mp htk]
        refine ⟨by simp, ?_⟩
        intro c hc
        rw [List.mem_singleton.mp hc]
        simpa using ha
    | cons b s3 =>
      by_cases ha : pySpaceChar a = true
      · rw [tokens_cons_space a (b :: s3) ha]
        exact ih
      · by_cases hb : pySpaceChar b = true
        · rw [tokens_cons_cons_space a b s3 (by simpa using ha) hb]
          intro tk htk
          rcases List.mem_cons.mp htk with rfl | htk2
          · refine ⟨by simp, ?_⟩
            intro c hc
            rw [List.mem_singleton.mp hc]
            simpa using ha
          · exact ih tk htk2
        · rw [tokens_cons_cons_nonspace a b s3 (by simpa using ha) (by simpa using hb)]
          cases htk0 : tokens (b :: s3) with
          | nil => exact absurd htk0 (tokens_cons_nonspace_ne_nil b s3 (by simpa using hb))
          | cons t ts =>
            intro tk htk
            rcases List.mem_cons.mp htk with rfl | htk2
            · have ht := ih t (htk0 ▸ List.mem_cons_self t ts)
              refine ⟨by simp, ?_⟩
              intro c hc
              rcases List.mem_cons.mp hc with rfl | hc2
              · simpa using ha
              · exact ht.2 c hc2
            · exact ih tk (htk0 ▸ List.mem_cons.mpr (Or.inr htk2))

theorem tokens_single (w : List Char) (hne : w ≠ [])
    (hsp : ∀ c ∈ w, pySpaceChar c = false) : tokens w = [w] := by
  induction w with
  | nil => exact absurd rfl hne
  | cons a s2 ih =>
    cases s2 with
    | nil =>
      have ha := hsp a (by simp)
      simp [tokens, ha]
    | cons b s3 =>
      have ha : pySpaceChar a = false := hsp a (List.mem_cons_self a (b :: s3))
      have hb : pySpaceChar b = false := hsp b (by simp)
      rw [tokens_cons_cons_nonspace a b s3 ha hb,
        ih (by simp) (fun c hc => hsp c (List.mem_cons.mpr (Or.inr hc)))]
      rfl

theorem tokens_joinSpace (ws : List (List Char))
    (h : ∀ w ∈ ws, w ≠ [] ∧ ∀ c ∈ w, pySpaceChar c = false) :
    tokens (joinSpace ws) = ws := by
  induction ws with
  | nil => rfl
  | cons w ws2 ih =>
    cases ws2 with
    | nil =>
      obtain ⟨h1, h2⟩ := h w (List.mem_cons_self w [])
      unfold joinSpace List.intercalate
      simp only [List.intersperse_singleton, List.flatten_cons, List.flatten_nil,
        List.append_nil]
      exact tokens_single w h1 h2
    | cons w2 ws3 =>
      obtain ⟨h1, h2⟩ := h w (List.mem_cons_self w (w2 :: ws3))
      have hjoin : joinSpace (w :: w2 :: ws3) = w ++ (' ' :: joinSpace (w2 :: ws3)) := by
        unfold joinSpace List.intercalate
        rw [List.intersperse_cons_cons]
        simp
      rw [hjoin,
        tokens_append_of_spaceOrNil w (' ' :: joinSpace (w2 :: ws3)) (by show pySpaceChar ' ' = true; decide),
        tokens_single w h1 h2,
        tokens_cons_space ' ' _ (by simp [pySpaceChar]),
        ih (fun v hv => h v (List.mem_cons.mpr (Or.inr hv)))]
      rfl

theorem tokens_pyStripL (l : List Char) : tokens (pyStripL l) = tokens l := by
  have hdecomp : l.dropWhile pySpaceChar
      = pyStripL l ++ ((l.dropWhile pySpaceChar).reverse.takeWhile pySpaceChar).reverse := by
    unfold pyStripL
    rw [← List.reverse_append, List.takeWhile_append_dropWhile, List.reverse_reverse]
  have hsuffix : ∀ c ∈ ((l.dropWhile pySpaceChar).reverse.takeWhile pySpaceChar).reverse,
      pySpaceChar c = true := by
    intro c hc
    rw [List.mem_reverse] at hc
    exact List.mem_takeWhile_imp hc
  rw [← tokens_dropWhile_space l, hdecomp,
    tokens_append_of_spaceOrNil _ _ (spaceOrNil_of_all_space _ hsuffix),
    (tokens_eq_nil_iff _).mpr hsuffix, List.append_nil]

/-! ### Split-point lemmas: every recorded match start sits on a newline -/

theorem suffix_drop_eq {r l : List Char} (h : r <:+ l) :
    r = l.drop (l.length - r.length) := by
  obtain ⟨u, hu⟩ := h
  rw [← hu]
  rw [show (u ++ r).length - r.length = u.length from by simp]
  exact (List.drop_left u r).symm

theorem expectChar_eq {c : Char} {l r : List Char} (h : expectChar c l = some r) :
    l = c :: r := by
  cases l with
  | nil => cases h
  | cons d rest =>
    unfold expectChar at h
    dsimp only at h
    split_ifs at h with hd
    · cases h
      rw [hd]

theorem expectClass_eq {p : Char → Bool} {l r : List Char} (h : expectClass p l = some r) :
    ∃ d, l = d :: r ∧ p d = true := by
  cases l with
  | nil => cases h
  | cons d rest =>
    unfold expectClass at h
    dsimp only at h
    split_ifs at h with hd
    · cases h
      exact ⟨d, rfl, hd⟩

theorem expectPlus_suffix {p : Char → Bool} {l r : List Char} (h : expectPlus p l = some r) :
    r <:+ l := by
  cases l with
  | nil => cases h
  | cons d rest =>
    unfold expectPlus at h
    dsimp only at h
    split_ifs at h with hd
    · cases h
      exact (List.dropWhile_suffix p).trans (List.suffix_cons d rest)

theorem dotDigitsStar_suffix (fuel : Nat) (l : List Char) : dotDigitsStar fuel l <:+ l := by
  induction fuel generalizing l with
  | zero => exact List.suffix_refl l
  | succ fuel ih =>
    unfold dotDigitsStar
    split
    · split_ifs with hd
      · rename_i d rest
        refine (ih _).trans ?_
        exact (List.dropWhile_suffix Char.isDigit).trans (List.suffix_cons '.' (d :: rest))
      · exact List.suffix_refl _
    · exact List.suffix_refl _

theorem skipStar_suffix (p : Char → Bool) (l : List Char) : skipStar p l <:+ l :=
  List.dropWhile_suffix p

theorem patFuzhu_spec (l r : List Char) (h : patFuzhu l = some r) :
    (∃ rest, l = '\n' :: rest) ∧ r <:+ l := by
  unfold patFuzhu at h
  cases h1 : expectChar '\n' l with
  | none => rw [h1] at h; cases h
  | some l1 =>
    rw [h1] at h
    dsimp only at h
    cases h2 : expectChar '附' (skipStar pySpaceChar l1) with
    | none => rw [h2] at h; cases h
    | some l2 =>
      rw [h2] at h
      dsimp only at h
      cases h3 : expectChar '注' l2 with
      | none => rw [h3] at h; cases h
      | some l3 =>
        rw [h3] at h
        dsimp only at h
        cases h4 : expectPlus isNumClassChar (skipStar pySpaceChar l3) with
        | none => rw [h4] at h; cases h
        | some l4 =>
          rw [h4] at h
          dsimp only at h
          refine ⟨⟨l1, expectChar_eq h1⟩, ?_⟩
          obtain ⟨d5, h5, _⟩ := expectClass_eq h
          have s5 : r <:+ l4 := h5 ▸ List.suffix_cons d5 r
          have s4 : l4 <:+ skipStar pySpaceChar l3 := expectPlus_suffix h4
          have s3 : l3 <:+ l2 := (expectChar_eq h3) ▸ List.suffix_cons '注' l3
          have s2 : l2 <:+ skipStar pySpaceChar l1 :=
            (expectChar_eq h2) ▸ List.suffix_cons '附' l2
          have s1 : l1 <:+ l := (expectChar_eq h1) ▸ List.suffix_cons '\n' l1
          exact s5.trans (s4.trans ((skipStar_suffix pySpaceChar l3).trans
            (s3.trans (s2.trans ((skipStar_suffix pySpaceChar l1).trans s1)))))

theorem patParenNum_spec (l r : List Char) (h : patParenNum l = some r) :
    (∃ rest, l = '\n' :: rest) ∧ r <:+ l := by
  unfold patParenNum at h
  cases h1 : expectChar '\n' l with
  | none => rw [h1] at h; cases h
  | some l1 =>
    rw [h1] at h
    dsimp only at h
    cases h2 : expectClass (fun c => c == '（' || c == '(') (skipStar pySpaceChar l1) with
    | none => rw [h2] at h; cases h
    | some l2 =>
      rw [h2] at h
      dsimp only at h
      cases h3 : expectPlus isNumClassChar l2 with
      | none => rw [h3] at h; cases h
      | some l3 =>
        rw [h3] at h
        dsimp only at h
        refine ⟨⟨l1, expectChar_eq h1⟩, ?_⟩
        obtain ⟨d4, h4, _⟩ := expectClass_eq h
        have s4 : r <:+ l3 := h4 ▸ List.suffix_cons d4 r
        have s3 : l3 <:+ l2 := expectPlus_suffix h3
        obtain ⟨d2, hd2, _⟩ := expectClass_eq h2
        have s2 : l2 <:+ skipStar pySpaceChar l1 := hd2 ▸ List.suffix_cons d2 l2
        have s1 : l1 <:+ l := (expectChar_eq h1) ▸ List.suffix_cons '\n' l1
        exact s4.trans (s3.trans (s2.trans ((skipStar_suffix pySpaceChar l1).trans s1)))

theorem patNumDot_spec (l r : List Char) (h : patNumDot l = some r) :
    (∃ rest, l = '\n' :: rest) ∧ r <:+ l := by
  unfold patNumDot at h
  cases h1 : expectChar '\n' l with
  | none => rw [h1] at h; cases h
  | some l1 =>
    rw [h1] at h
    dsimp only at h
    cases h2 : expectPlus isNumClassChar (skipStar pySpaceChar l1) with
    | none => rw [h2] at h; cases h
    | some l2 =>
      rw [h2] at h
      dsimp only at h
      refine ⟨⟨l1, expectChar_eq h1⟩, ?_⟩
      obtain ⟨d3, h3, _⟩ := expectClass_eq h
      have s3 : r <:+ l2 := h3 ▸ List.suffix_cons d3 r
      have s2 : l2 <:+ skipStar pySpaceChar l1 := expectPlus_suffix h2
      have s1 : l1 <:+ l := (expectChar_eq h1) ▸ List.suffix_cons '\n' l1
      exact s3.trans (s2.trans ((skipStar_suffix pySpaceChar l1).trans s1))

theorem patSection_spec (l r : List Char) (h : patSection l = some r) :
    (∃ rest, l = '\n' :: rest) ∧ r <:+ l := by
  unfold patSection at h
  cases h1 : expectChar '\n' l with
  | none => rw [h1] at h; cases h
  | some l1 =>
    rw [h1] at h
    dsimp only at h
    cases h2 : expectChar '§' (skipStar pySpaceChar l1) with
    | none => rw [h2] at h; cases h
    | some l2 =>
      rw [h2] at h
      dsimp only at h
      cases h3 : expectPlus Char.isDigit (skipStar pySpaceChar l2) with
      | none => rw [h3] at h; cases h
      | some l3 =>
        rw [h3] at h
        dsimp only at h
        cases h
        refine ⟨⟨l1, expectChar_eq h1⟩, ?_⟩
        have s4 : dotDigitsStar l3.length l3 <:+ l3 := dotDigitsStar_suffix l3.length l3
        have s3 : l3 <:+ skipStar pySpaceChar l2 := expectPlus_suffix h3
        have s2 : l2 <:+ skipStar pySpaceChar l1 :=
          (expectChar_eq h2) ▸ List.suffix_cons '§' l2
        have s1 : l1 <:+ l := (expectChar_eq h1) ▸ List.suffix_cons '\n' l1
        exact s4.trans (s3.trans ((skipStar_suffix pySpaceChar l2).trans
          (s2.trans ((skipStar_suffix pySpaceChar l1).trans s1))))

theorem patBlank_spec (l r : List Char) (h : patBlank l = some r) :
    (∃ rest, l = '\n' :: rest) ∧ r <:+ l := by
  unfold patBlank at h
  cases h1 : expectChar '\n' l with
  | none => rw [h1] at h; cases h
  | some l1 =>
    rw [h1] at h
    dsimp only at h
    refine ⟨⟨l1, expectChar_eq h1⟩, ?_⟩
    have s2 : r <:+ l1 := expectPlus_suffix h
    have s1 : l1 <:+ l := (expectChar_eq h1) ▸ List.suffix_cons '\n' l1
    exact s2.trans s1

theorem scanPattern_spec (pat : List Char → Option (List Char))
    (hpat : ∀ l r, pat l = some r → (∃ rest, l = '\n' :: rest) ∧ r <:+ l) :
    ∀ (fuel : Nat) (l : List Char) (i p : Nat), p ∈ scanPattern pat fuel l i →
      ∃ j rest, p = i + j ∧ l.drop j = '\n' :: rest := by
  intro fuel
  induction fuel with
  | zero =>
    intro l i p hp
    simp [scanPattern] at hp
  | succ fuel ih =>
    intro l i p hp
    cases l with
    | nil => simp [scanPattern] at hp
    | cons c cs =>
      unfold scanPattern at hp
      dsimp only at hp
      cases hm : pat (c :: cs) with
      | some rest0 =>
        rw [hm] at hp
        dsimp only at hp
        rcases List.mem_cons.mp hp with rfl | hp2
        · obtain ⟨⟨rest, hl⟩, _⟩ := hpat _ _ hm
          exact ⟨0, rest, by simp, by simpa using hl⟩
        · obtain ⟨j2, rest2, hpj, hdrop⟩ := ih rest0 (i + ((c :: cs).length - rest0.length)) p hp2
          obtain ⟨_, hsuf⟩ := hpat _ _ hm
          refine ⟨((c :: cs).length - rest0.length) + j2, rest2, by omega, ?_⟩
          rw [← List.drop_drop, ← suffix_drop_eq hsuf]
          exact hdrop
      | none =>
        rw [hm] at hp
        dsimp only at hp
        obtain ⟨j2, rest2, hpj, hdrop⟩ := ih cs (i + 1) p hp
        refine ⟨j2 + 1, rest2, by omega, ?_⟩
        rw [show j2 + 1 = (j2 + 1) from rfl]
        simpa [List.drop_succ_cons] using hdrop

theorem sectionStartPoints_newline (text : List Char) (p : Nat)
    (hp : p ∈ sectionStartPoints text) : ∃ rest, text.drop p = '\n' :: rest := by
  unfold sectionStartPoints at hp
  have spec : ∀ pat, (∀ l r, pat l = some r → (∃ rest, l = '\n' :: rest) ∧ r <:+ l) →
      p ∈ scanPattern pat text.length text 0 → ∃ rest, text.drop p = '\n' :: rest := by
    intro pat hpat hmem
    obtain ⟨j, rest, hpj, hdrop⟩ := scanPattern_spec pat hpat text.length text 0 p hmem
    exact ⟨rest, by rw [hpj]; simpa using hdrop⟩
  simp only [List.mem_append] at hp
  rcases hp with ((((h | h) | h) | h) | h)
  · exact spec patFuzhu patFuzhu_spec h
  · exact spec patParenNum patParenNum_spec h
  · exact spec patNumDot patNumDot_spec h
  · exact spec patSection patSection_spec h
  · exact spec patBlank patBlank_spec h

theorem sectionStartPoints_lt (text : List Char) (p : Nat)
    (hp : p ∈ sectionStartPoints text) : p < text.length := by
  obtain ⟨rest, hdrop⟩ := sectionStartPoints_newline text p hp
  by_contra hge
  rw [List.drop_eq_nil_of_le (by omega)] at hdrop
  cases hdrop

theorem mem_splitPoints (text : List Char) (p : Nat) :
    p ∈ splitPoints text ↔ p = 0 ∨ p ∈ sectionStartPoints text ∨ p = text.length := by
  unfold splitPoints
  rw [List.mem_insertionSort, List.mem_dedup]
  simp [List.mem_cons, List.mem_append]

theorem splitPoints_sorted (text : List Char) :
    List.Sorted (· ≤ ·) (splitPoints text) :=
  List.sorted_insertionSort (· ≤ ·) _

theorem splitPoints_nodup (text : List Char) : (splitPoints text).Nodup :=
  ((List.perm_insertionSort (· ≤ ·) _).nodup_iff).mpr (List.nodup_dedup _)


/-! ### Coverage of the structural split: the slices between consecutive
split points cover the text, and each interior cut sits on a newline, so
tokenizing slice-wise loses and merges nothing -/

theorem sorted_mem_decomp (l : List Nat) (n : Nat) :
    List.Sorted (· ≤ ·) l → l.Nodup → n ∈ l → (∀ p ∈ l, p ≤ n) →
    ∃ mid, l = mid ++ [n] ∧ ∀ p ∈ mid, p ∈ l ∧ p ≠ n := by
  induction l with
  | nil => intro _ _ hn _; cases hn
  | cons x xs ih =>
    intro hs hnd hn hub
    cases xs with
    | nil =>
      rcases List.mem_singleton.mp hn with rfl
      exact ⟨[], rfl, by intro p hp; cases hp⟩
    | cons y ys =>
      have hnxs : n ∈ y :: ys := by
        rcases List.mem_cons.mp hn with rfl | h
        · have h1 : n ≤ y := List.rel_of_sorted_cons hs y (List.mem_cons_self y ys)
          have h2 : y ≤ n :=
            hub y (List.mem_cons_of_mem n (List.mem_cons_self y ys))
          rw [Nat.le_antisymm h1 h2]
          exact List.mem_cons_self y ys
        · exact h
      obtain ⟨mid2, hx, hprops⟩ := ih (List.sorted_cons.mp hs).2
        (List.nodup_cons.mp hnd).2 hnxs
        (fun p hp => hub p (List.mem_cons_of_mem x hp))
      refine ⟨x :: mid2, by rw [List.cons_append, ← hx], ?_⟩
      intro p hp
      rcases List.mem_cons.mp hp with rfl | hp2
      · refine ⟨List.mem_cons_self p (y :: ys), ?_⟩
        intro hpn
        exact (List.nodup_cons.mp hnd).1 (by rw [hpn]; exact hnxs)
      · obtain ⟨hpin, hpn⟩ := hprops p hp2
        exact ⟨List.mem_cons_of_mem x hpin, hpn⟩

theorem splitPoints_decomp (text : List Char) (hne : text ≠ []) :
    ∃ mid, splitPoints text = 0 :: mid ++ [text.length] ∧
      ∀ p ∈ mid, p ∈ sectionStartPoints text := by
  have hlenpos : 0 < text.length := List.length_pos.mpr hne
  have hs := splitPoints_sorted text
  have hnd := splitPoints_nodup text
  have h0 : 0 ∈ splitPoints text := (mem_splitPoints text 0).mpr (Or.inl rfl)
  have hlen : text.length ∈ splitPoints text :=
    (mem_splitPoints text _).mpr (Or.inr (Or.inr rfl))
  have hub : ∀ p ∈ splitPoints text, p ≤ text.length := by
    intro p hp
    rcases (mem_splitPoints text p).mp hp with rfl | hp | rfl
    · exact Nat.zero_le _
    · exact Nat.le_of_lt (sectionStartPoints_lt text p hp)
    · exact Nat.le_refl _
  obtain ⟨mid, hL, hmidprops⟩ :=
    sorted_mem_decomp (splitPoints text) text.length hs hnd hlen hub
  have h0mid : 0 ∈ mid := by
    rw [hL] at h0
    rcases List.mem_append.mp h0 with h | h
    · exact h
    · have := List.mem_singleton.mp h
      omega
  cases mid with
  | nil => cases h0mid
  | cons z mid2 =>
    have hz : z = 0 := by
      rcases List.mem_cons.mp h0mid with h | h
      · exact h.symm
      · have hsL : List.Sorted (· ≤ ·) (z :: mid2 ++ [text.length]) := hL ▸ hs
        have hz0 : z ≤ 0 :=
          List.rel_of_sorted_cons hsL 0 (List.mem_append.mpr (Or.inl h))
        omega
    subst hz
    refine ⟨mid2, hL, ?_⟩
    intro p hp
    obtain ⟨hpin, hpne⟩ := hmidprops p (List.mem_cons_of_mem 0 hp)
    rcases (mem_splitPoints text p).mp hpin with rfl | h | h
    · have hndL : (0 :: mid2 ++ [text.length]).Nodup := hL ▸ hnd
      exact absurd (List.mem_append.mpr (Or.inl hp)) (List.nodup_cons.mp hndL).1
    · exact h
    · exact absurd h hpne

theorem rawSlices_tokens (text : List Char) :
    ∀ (mid : List Nat) (a : Nat),
      (∀ p ∈ mid, ∃ rest, text.drop p = '\n' :: rest) →
      List.Chain (· ≤ ·) a (mid ++ [text.length]) →
      ((rawSlices text (a :: mid ++ [text.length])).map tokens).flatten
        = tokens (text.drop a) := by
  intro mid
  induction mid with
  | nil =>
    intro a _ _
    have htake : (text.drop a).take (text.length - a) = text.drop a :=
      List.take_of_length_le (by rw [List.length_drop])
    simp [rawSlices, htake]
  | cons p mid2 ih =>
    intro a hbound hchain
    have hap : a ≤ p := by
      cases hchain with
      | cons h _ => exact h
    have hchain2 : List.Chain (· ≤ ·) p (mid2 ++ [text.length]) := by
      cases hchain with
      | cons _ h => exact h
    have hrest := ih p (fun q hq => hbound q (List.mem_cons_of_mem p hq)) hchain2
    obtain ⟨rest, hdropp⟩ := hbound p (List.mem_cons_self p mid2)
    have hsplit : text.drop a = (text.drop a).take (p - a) ++ text.drop p := by
      conv_lhs => rw [← List.take_append_drop (p - a) (text.drop a)]
      rw [List.drop_drop, Nat.add_sub_cancel' hap]
    have hsp : spaceOrNil (text.drop p) := by
      rw [hdropp]
      show pySpaceChar '\n' = true
      decide
    show tokens ((text.drop a).take (p - a)) ++
        ((rawSlices text (p :: mid2 ++ [text.length])).map tokens).flatten
      = tokens (text.drop a)
    rw [hrest, ← tokens_append_of_spaceOrNil _ _ hsp, ← hsplit]

theorem filterMap_strip_tokens (ss : List (List Char)) :
    ((ss.filterMap fun s =>
        let t := pyStripL s
        if t = [] then none else some t).map tokens).flatten
      = (ss.map tokens).flatten := by
  induction ss with
  | nil => rfl
  | cons s ss2 ih =>
    rw [List.filterMap_cons]
    dsimp only
    by_cases h : pyStripL s = []
    · rw [if_pos h]
      have hnil : tokens s = [] :=
        (tokens_eq_nil_iff s).mpr ((pyStripL_eq_nil_iff s).mp h)
      simp [ih, hnil]
    · rw [if_neg h]
      simp [ih, tokens_pyStripL]

theorem rawSectionsMain_tokens (text : List Char) (hne : text ≠ []) :
    ((rawSectionsMain text).map tokens).flatten = tokens text := by
  unfold rawSectionsMain
  rw [filterMap_strip_tokens]
  obtain ⟨mid, hL, hmid⟩ := splitPoints_decomp text hne
  have hsorted := splitPoints_sorted text
  rw [hL] at hsorted
  have hchain : List.Chain (· ≤ ·) 0 (mid ++ [text.length]) :=
    List.Pairwise.chain' hsorted
  have hcover := rawSlices_tokens text mid 0
    (fun p hp => sectionStartPoints_newline text p (hmid p hp)) hchain
  rw [hL]
  simpa using hcover

theorem rawSectionsMain_ne_nil (text : List Char) (hstrip : pyStripL text ≠ []) :
    rawSectionsMain text ≠ [] := by
  intro hmain
  have hne : text ≠ [] := by
    intro h
    exact hstrip (by rw [h]; rfl)
  have := rawSectionsMain_tokens text hne
  rw [hmain] at this
  exact hstrip ((pyStripL_eq_nil_iff text).mpr ((tokens_eq_nil_iff text).mp this.symm))

theorem raw_sections_of_eq (text : List Char) (m : Nat) (hstrip : pyStripL text ≠ []) :
    raw_sections_of text m = rawSectionsMain text := by
  unfold raw_sections_of
  rw [if_neg (rawSectionsMain_ne_nil text hstrip)]

theorem raw_sections_tokens (text : List Char) (m : Nat) (hstrip : pyStripL text ≠ []) :
    ((raw_sections_of text m).map tokens).flatten = tokens text := by
  rw [raw_sections_of_eq text m hstrip]
  exact rawSectionsMain_tokens text (fun h => hstrip (by rw [h]; rfl))


/-! ### The hard-split loop and the packing arithmetic -/

theorem hsAux_pieces (m : Nat) :
    ∀ (fuel : Nat) (w : List Char), ∀ p ∈ (hsAux m fuel w).1, p.length ≤ m := by
  intro fuel
  induction fuel with
  | zero => intro w p hp; cases hp
  | succ fuel ih =>
    intro w p hp
    by_cases h : m < w.length
    · rw [hsAux, if_pos h] at hp
      rcases List.mem_cons.mp hp with rfl | hp2
      · rw [List.length_take]
        exact Nat.min_le_left m w.length
      · exact ih (w.drop m) p hp2
    · rw [hsAux, if_neg h] at hp
      cases hp

theorem hsAux_rem (m : Nat) (hm : 1 ≤ m) :
    ∀ (fuel : Nat) (w : List Char), w.length ≤ fuel →
      (hsAux m fuel w).2.length ≤ m := by
  intro fuel
  induction fuel with
  | zero =>
    intro w hw
    have : w.length = 0 := Nat.le_zero.mp hw
    rw [hsAux]
    dsimp only
    omega
  | succ fuel ih =>
    intro w hw
    by_cases h : m < w.length
    · rw [hsAux, if_pos h]
      exact ih (w.drop m) (by rw [List.length_drop]; omega)
    · rw [hsAux, if_neg h]
      dsimp only
      omega

theorem hardSplitPieces_pieces (m : Nat) (w : List Char) :
    ∀ p ∈ (hardSplitPieces m w).1, p.length ≤ m :=
  hsAux_pieces m w.length w

theorem hardSplitPieces_rem (m : Nat) (hm : 1 ≤ m) (w : List Char) :
    (hardSplitPieces m w).2.length ≤ m :=
  hsAux_rem m hm w.length w (Nat.le_refl _)

theorem hardSplitPieces_of_le (m : Nat) (w : List Char) (h : w.length ≤ m) :
    hardSplitPieces m w = ([], w) := by
  unfold hardSplitPieces
  cases hw : w.length with
  | zero => rfl
  | succ n => rw [hsAux, if_neg (by omega)]

theorem joinSpace_length (ws : List (List Char)) (hne : ws ≠ []) :
    (joinSpace ws).length + 1 = sumLens ws + ws.length := by
  induction ws with
  | nil => exact absurd rfl hne
  | cons w ws2 ih =>
    cases ws2 with
    | nil => simp [joinSpace, List.intercalate, sumLens]
    | cons v rest =>
      have hstep : joinSpace (w :: v :: rest) = w ++ ' ' :: joinSpace (v :: rest) := by
        show List.intercalate [' '] (w :: v :: rest) = _
        rw [List.intercalate, List.intersperse_cons_cons, List.flatten_cons,
          List.flatten_cons]
        rfl
      rw [hstep]
      have := ih (List.cons_ne_nil v rest)
      simp only [List.length_append, List.length_cons, sumLens, List.map_cons,
        List.sum_cons] at *
      omega

theorem chunksTokens_append (st : PackState) (cs : List (List Char)) :
    chunksTokens { st with chunks := st.chunks ++ cs }
      = chunksTokens st ++ (cs.map tokens).flatten := by
  unfold chunksTokens
  rw [List.map_append, List.flatten_append]


/-! ### Per-word packing invariants -/

theorem stepWord_inv (m : Nat) (hm : 1 ≤ m) (st : PackState) (w : List Char)
    (hch : ∀ c ∈ st.chunks, c.length ≤ m)
    (heq : st.currentLen = sumLens st.temp + st.temp.length)
    (hle : st.currentLen ≤ m + 1) :
    (∀ c ∈ (stepWord m st w).chunks, c.length ≤ m) ∧
    (stepWord m st w).currentLen
      = sumLens (stepWord m st w).temp + (stepWord m st w).temp.length ∧
    (stepWord m st w).currentLen ≤ m + 1 := by
  unfold stepWord
  by_cases hcond : st.currentLen + w.length + 1 > m
  · rw [if_pos hcond]
    by_cases htemp : st.temp ≠ []
    · rw [if_pos htemp]
      dsimp only
      refine ⟨?_, ?_, ?_⟩
      · intro c hc
        rcases List.mem_append.mp hc with hc1 | hc2
        · rcases List.mem_append.mp hc1 with hc3 | hc4
          · exact hch c hc3
          · rcases List.mem_singleton.mp hc4 with rfl
            have hjl := joinSpace_length st.temp htemp
            omega
        · exact hardSplitPieces_pieces m w c hc2
      · simp [sumLens]
      · have := hardSplitPieces_rem m hm w
        omega
    · rw [if_neg htemp]
      dsimp only
      have htempnil : st.temp = [] := not_not.mp htemp
      have h0 : st.currentLen = 0 := by
        rw [heq, htempnil]
        rfl
      refine ⟨?_, ?_, ?_⟩
      · intro c hc
        rcases List.mem_append.mp hc with hc1 | hc2
        · exact hch c hc1
        · exact hardSplitPieces_pieces m w c hc2
      · rw [htempnil, h0]
        simp [sumLens]
      · have := hardSplitPieces_rem m hm w
        omega
  · rw [if_neg hcond]
    dsimp only
    refine ⟨fun c hc => hch c hc, ?_, ?_⟩
    · simp only [sumLens, List.map_append, List.sum_append, List.length_append,
        List.map_cons, List.sum_cons, List.map_nil, List.sum_nil, List.length_cons,
        List.length_nil]
      simp only [sumLens] at heq
      omega
    · omega

theorem stepWord_tokens (m : Nat) (st : PackState) (w : List Char)
    (hw : w ≠ [] ∧ ∀ c ∈ w, pySpaceChar c = false)
    (hwlen : w.length ≤ m)
    (htempwf : ∀ v ∈ st.temp, v ≠ [] ∧ ∀ c ∈ v, pySpaceChar c = false) :
    chunksTokens (stepWord m st w) ++ (stepWord m st w).temp
      = chunksTokens st ++ st.temp ++ [w] ∧
    ∀ v ∈ (stepWord m st w).temp, v ≠ [] ∧ ∀ c ∈ v, pySpaceChar c = false := by
  have hhs : hardSplitPieces m w = ([], w) := hardSplitPieces_of_le m w hwlen
  unfold stepWord
  by_cases hcond : st.currentLen + w.length + 1 > m
  · rw [if_pos hcond, hhs]
    by_cases htemp : st.temp ≠ []
    · rw [if_pos htemp]
      dsimp only
      constructor
      · unfold chunksTokens
        dsimp only
        rw [List.append_nil, List.map_append, List.flatten_append]
        simp only [List.map_cons, List.map_nil, List.flatten_cons, List.flatten_nil,
          List.append_nil, List.nil_append]
        rw [tokens_joinSpace st.temp htempwf]
      · intro v hv
        rw [List.nil_append] at hv
        rcases List.mem_singleton.mp hv with rfl
        exact hw
    · rw [if_neg htemp]
      dsimp only
      have htempnil : st.temp = [] := not_not.mp htemp
      constructor
      · unfold chunksTokens
        dsimp only
        rw [List.append_nil, htempnil]
        simp
      · intro v hv
        rw [htempnil, List.nil_append] at hv
        rcases List.mem_singleton.mp hv with rfl
        exact hw
  · rw [if_neg hcond]
    dsimp only
    constructor
    · unfold chunksTokens
      dsimp only
      rw [List.append_assoc]
    · intro v hv
      rcases List.mem_append.mp hv with h | h
      · exact htempwf v h
      · rcases List.mem_singleton.mp h with rfl
        exact hw

theorem foldl_stepWord_inv (m : Nat) (hm : 1 ≤ m) (ws : List (List Char)) :
    ∀ st : PackState,
      (∀ c ∈ st.chunks, c.length ≤ m) →
      st.currentLen = sumLens st.temp + st.temp.length →
      st.currentLen ≤ m + 1 →
      (∀ c ∈ (ws.foldl (stepWord m) st).chunks, c.length ≤ m) ∧
      (ws.foldl (stepWord m) st).currentLen
        = sumLens (ws.foldl (stepWord m) st).temp
          + (ws.foldl (stepWord m) st).temp.length ∧
      (ws.foldl (stepWord m) st).currentLen ≤ m + 1 := by
  induction ws with
  | nil =>
    intro st h1 h2 h3
    exact ⟨h1, h2, h3⟩
  | cons w ws2 ih =>
    intro st h1 h2 h3
    rw [List.foldl_cons]
    obtain ⟨g1, g2, g3⟩ := stepWord_inv m hm st w h1 h2 h3
    exact ih (stepWord m st w) g1 g2 g3

theorem foldl_stepWord_tokens (m : Nat) (ws : List (List Char)) :
    ∀ st : PackState,
      (∀ w ∈ ws, (w ≠ [] ∧ ∀ c ∈ w, pySpaceChar c = false) ∧ w.length ≤ m) →
      (∀ v ∈ st.temp, v ≠ [] ∧ ∀ c ∈ v, pySpaceChar c = false) →
      chunksTokens (ws.foldl (stepWord m) st) ++ (ws.foldl (stepWord m) st).temp
        = chunksTokens st ++ st.temp ++ ws ∧
      ∀ v ∈ (ws.foldl (stepWord m) st).temp,
        v ≠ [] ∧ ∀ c ∈ v, pySpaceChar c = false := by
  induction ws with
  | nil =>
    intro st _ htempwf
    exact ⟨by simp, htempwf⟩
  | cons w ws2 ih =>
    intro st hws htempwf
    rw [List.foldl_cons]
    obtain ⟨hw, hwlen⟩ := hws w (List.mem_cons_self w ws2)
    obtain ⟨e1, e2⟩ := stepWord_tokens m st w hw hwlen htempwf
    obtain ⟨f1, f2⟩ := ih (stepWord m st w)
      (fun v hv => hws v (List.mem_cons_of_mem w hv)) e2
    refine ⟨?_, f2⟩
    rw [f1, e1]
    simp [List.append_assoc]

theorem runSection_inv (m : Nat) (hm : 1 ≤ m) (st : PackState) (s : List Char)
    (hch : ∀ c ∈ st.chunks, c.length ≤ m) :
    (∀ c ∈ (runSection m st s).chunks, c.length ≤ m) ∧
    (runSection m st s).temp = [] := by
  unfold runSection
  dsimp only
  obtain ⟨g1, g2, g3⟩ := foldl_stepWord_inv m hm (tokens s)
    ⟨st.chunks, [], 0⟩ hch (by simp [sumLens]) (by dsimp only; omega)
  by_cases h :
      ((tokens s).foldl (stepWord m) ⟨st.chunks, [], 0⟩).temp ≠ []
  · rw [if_pos h]
    refine ⟨?_, rfl⟩
    intro c hc
    rcases List.mem_append.mp hc with h1 | h2
    · exact g1 c h1
    · rcases List.mem_singleton.mp h2 with rfl
      have hjl := joinSpace_length _ h
      omega
  · rw [if_neg h]
    exact ⟨g1, not_not.mp h⟩

theorem runSection_tokens (m : Nat) (st : PackState) (s : List Char)
    (hts : ∀ tk ∈ tokens s, tk.length ≤ m) :
    chunksTokens (runSection m st s) = chunksTokens st ++ tokens s := by
  unfold runSection
  dsimp only
  obtain ⟨e1, e2⟩ := foldl_stepWord_tokens m (tokens s) ⟨st.chunks, [], 0⟩
    (fun w hw => ⟨tokens_wf s w hw, hts w hw⟩)
    (by intro v hv; cases hv)
  have hbase : chunksTokens (⟨st.chunks, [], 0⟩ : PackState) = chunksTokens st := rfl
  rw [hbase] at e1
  simp only [List.append_nil] at e1
  by_cases h :
      ((tokens s).foldl (stepWord m) ⟨st.chunks, [], 0⟩).temp ≠ []
  · rw [if_pos h]
    unfold chunksTokens
    dsimp only
    rw [List.map_append, List.flatten_append]
    simp only [List.map_cons, List.map_nil, List.flatten_cons, List.flatten_nil,
      List.append_nil]
    rw [tokens_joinSpace _ e2]
    exact e1
  · rw [if_neg h]
    have htempnil := not_not.mp h
    rw [htempnil, List.append_nil] at e1
    exact e1


theorem foldl_runSection_inv (m : Nat) (hm : 1 ≤ m) (secs : List (List Char)) :
    ∀ st : PackState, (∀ c ∈ st.chunks, c.length ≤ m) →
      ∀ c ∈ (secs.foldl (runSection m) st).chunks, c.length ≤ m := by
  induction secs with
  | nil => intro st h; exact h
  | cons s secs2 ih =>
    intro st h
    rw [List.foldl_cons]
    exact ih (runSection m st s) (runSection_inv m hm st s h).1

theorem foldl_runSection_tokens (m : Nat) (secs : List (List Char)) :
    ∀ st : PackState,
      (∀ s ∈ secs, ∀ tk ∈ tokens s, tk.length ≤ m) →
      chunksTokens (secs.foldl (runSection m) st)
        = chunksTokens st ++ (secs.map tokens).flatten := by
  induction secs with
  | nil => intro st _; simp
  | cons s secs2 ih =>
    intro st hts
    rw [List.foldl_cons,
      ih (runSection m st s) (fun u hu => hts u (List.mem_cons_of_mem s hu)),
      runSection_tokens m st s (hts s (List.mem_cons_self s secs2))]
    simp [List.append_assoc]

theorem attachIds_mem (doc_type period_label : String) :
    ∀ (ts : List (List Char)) (idx : Nat) (c : Chunk),
      c ∈ attachIds doc_type period_label idx ts → c.text ∈ ts := by
  intro ts
  induction ts with
  | nil => intro idx c hc; cases hc
  | cons t ts2 ih =>
    intro idx c hc
    rw [attachIds] at hc
    rcases List.mem_cons.mp hc with rfl | h
    · exact List.mem_cons_self t ts2
    · exact List.mem_cons_of_mem t (ih (idx + 1) c h)

theorem attachIds_map_tokens (doc_type period_label : String) :
    ∀ (ts : List (List Char)) (idx : Nat),
      ((attachIds doc_type period_label idx ts).map fun c => tokens c.text)
        = ts.map tokens := by
  intro ts
  induction ts with
  | nil => intro idx; rfl
  | cons t ts2 ih =>
    intro idx
    rw [attachIds, List.map_cons, List.map_cons, ih (idx + 1)]

/-- C3: for every input text and every `max_chars ≥ 1`, every chunk produced
by `smart_chunk_document` has text length at most `max_chars` (tokens longer
than `max_chars` having been hard-split into pieces of length `≤ max_chars`,
which is part of the packing loop this bound quantifies over). -/
theorem claim_C3 (text : List Char) (doc_type period_label : String)
    (max_chars : Nat) (hm : 1 ≤ max_chars) :
    ∀ c ∈ smart_chunk_document text doc_type period_label max_chars,
      c.text.length ≤ max_chars := by
  intro c hc
  unfold smart_chunk_document at hc
  by_cases hguard : text = [] ∨ pyStripL text = []
  · rw [if_pos hguard] at hc
    cases hc
  · rw [if_neg hguard] at hc
    dsimp only at hc
    have hmem := attachIds_mem doc_type period_label _ 0 c hc
    exact foldl_runSection_inv max_chars hm (raw_sections_of text max_chars)
      ⟨[], [], 0⟩ (by intro x hx; cases hx) c.text hmem

/-- C3 witness: the bound instantiated at a concrete oversized-token input
(`"aaa"` with `max_chars = 1`, which exercises the hard-split path). -/
theorem claim_C3_witness :
    1 ≤ 1 ∧ ∀ c ∈ smart_chunk_document ['a', 'a', 'a'] "fs" "2023" 1,
      c.text.length ≤ 1 :=
  ⟨Nat.le_refl 1, claim_C3 ['a', 'a', 'a'] "fs" "2023" 1 (Nat.le_refl 1)⟩

/-- C2 counterexample: for the non-whitespace input `"aa"` with
`max_chars = 1`, the hard-split loop cuts the single token `"aa"` into two
chunks `"a"`, `"a"`, so the chunks retokenized do not contain every token of
the input exactly once (the token `"aa"` never occurs; `"a"` occurs twice). -/
theorem claim_C2_counterexample :
    pyStripL ['a', 'a'] ≠ [] ∧
    ((smart_chunk_document ['a', 'a'] "fs" "2023" 1).map
        fun c => tokens c.text).flatten ≠ tokens ['a', 'a'] := by
  decide

/-- C2 (amended): for empty or whitespace-only input the result is empty;
for input with non-whitespace content, provided no whitespace-delimited token
exceeds `max_chars` (so that the hard-split loop never fires), the result is
non-empty and its chunk texts, each retokenized on whitespace and
concatenated in order, are exactly the token sequence of the input. -/
theorem claim_C2_amended (text : List Char) (doc_type period_label : String)
    (max_chars : Nat) :
    (pyStripL text = [] →
      smart_chunk_document text doc_type period_label max_chars = []) ∧
    (pyStripL text ≠ [] →
      (∀ tk ∈ tokens text, tk.length ≤ max_chars) →
      smart_chunk_document text doc_type period_label max_chars ≠ [] ∧
      ((smart_chunk_document text doc_type period_label max_chars).map
          fun c => tokens c.text).flatten = tokens text) := by
  constructor
  · intro h
    unfold smart_chunk_document
    rw [if_pos (Or.inr h)]
  · intro hstrip hlen
    have hne : text ≠ [] := fun h => hstrip (by rw [h]; rfl)
    have hguard : ¬(text = [] ∨ pyStripL text = []) := by
      intro h
      rcases h with h | h
      · exact hne h
      · exact hstrip h
    have hsec := raw_sections_tokens text max_chars hstrip
    have hsecbound : ∀ s ∈ raw_sections_of text max_chars,
        ∀ tk ∈ tokens s, tk.length ≤ max_chars := by
      intro s hs tk htk
      apply hlen
      rw [← hsec]
      exact List.mem_flatten.mpr ⟨tokens s, List.mem_map_of_mem tokens hs, htk⟩
    have hct : chunksTokens ((raw_sections_of text max_chars).foldl
        (runSection max_chars) ⟨[], [], 0⟩) = tokens text := by
      rw [foldl_runSection_tokens max_chars _ _ hsecbound,
        show chunksTokens (⟨[], [], 0⟩ : PackState) = [] from rfl,
        List.nil_append, hsec]
    have hresult : ((smart_chunk_document text doc_type period_label max_chars).map
        fun c => tokens c.text).flatten = tokens text := by
      unfold smart_chunk_document
      rw [if_neg hguard]
      dsimp only
      rw [attachIds_map_tokens]
      exact hct
    refine ⟨?_, hresult⟩
    intro hnil
    rw [hnil] at hresult
    have hniltok : tokens text = [] := hresult.symm
    exact hstrip ((pyStripL_eq_nil_iff text).mpr ((tokens_eq_nil_iff text).mp hniltok))

/-- C2 witness: whitespace-only input gives no chunks, and `"hi yo"` at the
default size gives a non-empty chunking whose retokenization is exactly
`["hi", "yo"]`. -/
theorem claim_C2_witness :
    smart_chunk_document [' '] "fs" "2023" 4000 = [] ∧
    (smart_chunk_document ['h', 'i', ' ', 'y', 'o'] "fs" "2023" 4000 ≠ [] ∧
      ((smart_chunk_document ['h', 'i', ' ', 'y', 'o'] "fs" "2023" 4000).map
          fun c => tokens c.text).flatten = tokens ['h', 'i', ' ', 'y', 'o']) :=
  ⟨(claim_C2_amended [' '] "fs" "2023" 4000).1 (by decide),
   (claim_C2_amended ['h', 'i', ' ', 'y', 'o'] "fs" "2023" 4000).2
     (by decide) (by decide)⟩

end FsaLlm
